import Mathlib

/-!
Verification development for the torchbp SAR imaging core.

The repository ships only the two example notebooks
(`docs/source/examples/backprojection.ipynb`, `docs/source/examples/pga.ipynb`);
the library kernels themselves (`torchbp.ops`, `torchbp.autofocus`,
`torchbp.util`) are not part of the sources available here.  Every operation
below is therefore a shallow embedding modelled from the specification's
component contracts (spec sections 3, 4.1-4.4, 7) and from the notebook calls,
with floating-point numbers idealised as real numbers and complex tensors as
index functions into the complex field.
-/

open Finset

noncomputable section

namespace Torchbp

/-- Loop-style accumulator: `accumLoop f n` adds `f 0, f 1, ..., f (n-1)` into
an accumulation cell one term at a time, the way the engine's per-sweep (or
per-element) accumulation loop runs. -/
def accumLoop {M : Type*} [AddCommMonoid M] (f : ℕ → M) : ℕ → M
  | 0 => 0
  | n + 1 => accumLoop f n + f n

/-- The accumulation loop computes the finite sum. -/
theorem accumLoop_eq_sum {M : Type*} [AddCommMonoid M] (f : ℕ → M) (n : ℕ) :
    accumLoop f n = ∑ k ∈ Finset.range n, f k := by
  induction n with
  | zero => simp [accumLoop]
  | succ n ih => rw [accumLoop, ih, Finset.sum_range_succ]

/-- A 3-D position (platform position or the physical location of a grid
cell).  Modelled from the spec: Trajectory supplies one 3-D position per
sweep. -/
structure Pos3 where
  x : ℝ
  y : ℝ
  z : ℝ

/-- Euclidean distance between two 3-D points (spec 4.1 step 1: "analytic
Euclidean distance between the platform position and the grid cell"). -/
def dist3 (p q : Pos3) : ℝ :=
  Real.sqrt ((p.x - q.x) ^ 2 + (p.y - q.y) ^ 2 + (p.z - q.z) ^ 2)

/-- Propagation speed constant `c` (the notebooks use `3e8`). -/
def cLight : ℝ := 3 * 10 ^ 8

/-- Two-way carrier-phase correction `exp(-j 4 pi fc d / c)` (spec 4.1
step 3). -/
def carrier (fc d : ℝ) : ℂ :=
  Complex.exp (-(((4 * Real.pi * fc * d) / cLight : ℝ) : ℂ) * Complex.I)

/-- Modelled from the spec: RangeProfile, a 2-D complex array indexed
`[sweep, range-sample]` (spec section 3); `sample` is total, the engine only
reads indices below `nbins`. -/
structure RangeProfile where
  nsweeps : ℕ
  nbins : ℕ
  sample : ℕ → ℕ → ℂ

/-- Modelled from the spec: Trajectory, an ordered sequence of 3-D positions,
one per sweep. -/
structure Traj where
  n : ℕ
  pos : ℕ → Pos3

/-- Mean platform position, used as the origin of the polar grid ("the
trajectory's mean cross-track axis"; the notebooks use
`origin = torch.mean(pos, axis=0)`). -/
def trajMean (t : Traj) : Pos3 :=
  ⟨accumLoop (fun k => (t.pos k).x) t.n / t.n,
   accumLoop (fun k => (t.pos k).y) t.n / t.n,
   accumLoop (fun k => (t.pos k).z) t.n / t.n⟩

/-- Modelled from the spec: polar ImageGrid variant
`(r_min, r_max, n_r, theta_min, theta_max, n_theta)`; theta is the sine of
the azimuth angle, not radians. -/
structure PolarGrid where
  r0 : ℝ
  r1 : ℝ
  nr : ℕ
  t0 : ℝ
  t1 : ℝ
  nt : ℕ

/-- Modelled from the spec: Cartesian ImageGrid variant
`(x_min, x_max, n_x, y_min, y_max, n_y)`. -/
structure CartGrid where
  x0 : ℝ
  x1 : ℝ
  nx : ℕ
  y0 : ℝ
  y1 : ℝ
  ny : ℕ

/-- Modelled from the spec: the tagged "variant grid" (spec section 9). -/
inductive ImageGrid where
  | polar (g : PolarGrid)
  | cart (g : CartGrid)

/-- Range lattice step of a polar grid. -/
def rStep (g : PolarGrid) : ℝ := (g.r1 - g.r0) / g.nr

/-- Azimuth (sine of angle) lattice step of a polar grid. -/
def tStep (g : PolarGrid) : ℝ := (g.t1 - g.t0) / g.nt

/-- Range coordinate of the `i`-th polar sample center. -/
def rAt (g : PolarGrid) (i : ℕ) : ℝ := g.r0 + i * rStep g

/-- Sine-of-angle coordinate of the `j`-th polar sample center. -/
def tAt (g : PolarGrid) (j : ℕ) : ℝ := g.t0 + j * tStep g

/-- Cross-range lattice step of a Cartesian grid. -/
def xStep (g : CartGrid) : ℝ := (g.x1 - g.x0) / g.nx

/-- Along-track lattice step of a Cartesian grid. -/
def yStep (g : CartGrid) : ℝ := (g.y1 - g.y0) / g.ny

/-- Coordinate of the `u`-th Cartesian sample center along x. -/
def xAt (g : CartGrid) (u : ℕ) : ℝ := g.x0 + u * xStep g

/-- Coordinate of the `v`-th Cartesian sample center along y. -/
def yAt (g : CartGrid) (v : ℕ) : ℝ := g.y0 + v * yStep g

/-- Physical 3-D point of a polar cell `(r, s)` (s = sine of azimuth angle)
relative to the grid origin, on the imaged ground plane (spec 4.1 step 1:
"polar cells convert (r, sin theta) to a 3-D point using the trajectory's
mean cross-track axis"). -/
def polarCellPos (o : Pos3) (r s : ℝ) : Pos3 :=
  ⟨o.x + r * Real.sqrt (1 - s ^ 2), o.y + r * s, 0⟩

/-- Physical 3-D point of a Cartesian cell (spec 4.1 step 1: "Cartesian cells
use (x, y, 0) directly"). -/
def cartCellPos (x y : ℝ) : Pos3 := ⟨x, y, 0⟩

/-- Clamp an integer index into `{0, ..., n-1}` (spec 7: NumericDegeneracy is
recovered via a clamped index). -/
def clampIdx (n : ℕ) (z : ℤ) : ℕ := min z.toNat (n - 1)

/-- Linear interpolation of a range profile at a fractional index, with the
accessed integer indices clamped into bounds (spec 4.1 step 2). -/
def interpLin (prof : ℕ → ℂ) (n : ℕ) (x : ℝ) : ℂ :=
  ((1 - (x - (⌊x⌋ : ℝ)) : ℝ) : ℂ) * prof (clampIdx n ⌊x⌋) +
    (((x - (⌊x⌋ : ℝ)) : ℝ) : ℂ) * prof (clampIdx n (⌊x⌋ + 1))

/-- Modelled from the spec: explicit fold-selection function taking the
nominal range and the ambiguity period to an integer fold (spec section 9). -/
def foldSelect (rnom ambig : ℝ) : ℤ := ⌊rnom / ambig⌋

/-- Fractional range index for a cell at distance `d`.  With `dealias` the
engine uses the grid cell's nominal range `rnom` to pick the aliasing fold
before interpolating; without it the raw fractional index is used as-is
(spec 4.1, Dealiasing). -/
def rangeIndex (dealias : Bool) (d r_res rnom : ℝ) (n : ℕ) : ℝ :=
  if dealias then d / r_res - (foldSelect rnom (n * r_res) : ℤ) * n
  else d / r_res

/-- Contribution of sweep `k` to a cell at physical point `p` with nominal
range `rnom`: the range profile interpolated at the cell's fractional range
index, multiplied by the carrier-phase correction (spec 4.1 steps 1-3). -/
def sweepContrib (data : RangeProfile) (traj : Traj) (fc r_res : ℝ)
    (dealias : Bool) (p : Pos3) (rnom : ℝ) (k : ℕ) : ℂ :=
  interpLin (data.sample k) data.nbins
      (rangeIndex dealias (dist3 (traj.pos k) p) r_res rnom data.nbins) *
    carrier fc (dist3 (traj.pos k) p)

/-- Per-cell backprojection value: the accumulation loop over all sweeps
(spec 4.1 step 4). -/
def bpPix (data : RangeProfile) (traj : Traj) (fc r_res : ℝ) (dealias : Bool)
    (p : Pos3) (rnom : ℝ) : ℂ :=
  accumLoop (sweepContrib data traj fc r_res dealias p rnom) data.nsweeps

/-- A batched complex image tensor with dimensions `[nb, nr, nc]`.  Modelled
from the notebooks: the backprojection operators return a singular leading
batch dimension ("img.squeeze() # Removes singular batch dimension"). -/
structure BImage where
  nb : ℕ
  nr : ℕ
  nc : ℕ
  pix : ℕ → ℕ → ℕ → ℂ

/-- Dimension list of a batched image. -/
def BImage.dims (im : BImage) : List ℕ := [im.nb, im.nr, im.nc]

/-- A plain 2-D complex image. -/
structure Image2 where
  nr : ℕ
  nc : ℕ
  pix : ℕ → ℕ → ℂ

/-- Dimension list of a 2-D image. -/
def Image2.dims (im : Image2) : List ℕ := [im.nr, im.nc]

/-- Squeeze the singular leading batch dimension (the notebooks'
`img.squeeze()` / `img.squeeze(0)`). -/
def squeeze0 (im : BImage) : Image2 := ⟨im.nr, im.nc, im.pix 0⟩

/-- Modelled from the spec: `torchbp.ops.backprojection_polar_2d`.  For every
polar grid cell it accumulates, over all sweeps, the interpolated range
profile value times the carrier-phase correction (spec 4.1); the output
carries a singular batch dimension as shown in the notebooks. -/
def backprojection_polar_2d (data : RangeProfile) (g : PolarGrid)
    (fc r_res : ℝ) (traj : Traj) (dealias : Bool) : BImage :=
  ⟨1, g.nr, g.nt, fun _ i j =>
    bpPix data traj fc r_res dealias
      (polarCellPos (trajMean traj) (rAt g i) (tAt g j)) (rAt g i)⟩

/-- Modelled from the spec: `torchbp.ops.backprojection_cart_2d`.  Same
per-cell contract as the polar variant, on a Cartesian grid; a cell's nominal
range is its distance to the trajectory's mean position. -/
def backprojection_cart_2d (data : RangeProfile) (g : CartGrid)
    (fc r_res : ℝ) (traj : Traj) (dealias : Bool) : BImage :=
  ⟨1, g.nx, g.ny, fun _ u v =>
    bpPix data traj fc r_res dealias (cartCellPos (xAt g u) (yAt g v))
      (dist3 (cartCellPos (xAt g u) (yAt g v)) (trajMean traj))⟩

/-- Modelled from the spec: the fatal configuration errors of section 7
(shape mismatch, non-positive dimensions). -/
inductive ConfigError where
  | sweepMismatch
  | nonPositiveDim
deriving DecidableEq

/-- Positivity of the grid sample counts (spec section 3 invariants). -/
def gridPositive : ImageGrid → Prop
  | .polar g => 0 < g.nr ∧ 0 < g.nt
  | .cart g => 0 < g.nx ∧ 0 < g.ny

instance : DecidablePred gridPositive := by
  intro g
  cases g with
  | polar g => exact instDecidableAnd
  | cart g => exact instDecidableAnd

/-- Modelled from the spec: the checked `backproject` entry point (spec 4.1
contract together with the section 7 error taxonomy): a sweep-count mismatch
between the data and the trajectory is a fatal configuration error reported
immediately, before any image is formed. -/
def backproject (data : RangeProfile) (grid : ImageGrid) (fc r_res : ℝ)
    (traj : Traj) (dealias : Bool) : Except ConfigError BImage :=
  if data.nsweeps ≠ traj.n then .error .sweepMismatch
  else if ¬ gridPositive grid then .error .nonPositiveDim
  else .ok (match grid with
    | .polar g => backprojection_polar_2d data g fc r_res traj dealias
    | .cart g => backprojection_cart_2d data g fc r_res traj dealias)

/-- Bilinear interpolation of a 2-D image at fractional indices, built from
two clamped linear interpolations. -/
def interp2 (f : ℕ → ℕ → ℂ) (nr nc : ℕ) (x y : ℝ) : ℂ :=
  interpLin (fun i => interpLin (f i) nc y) nr x

/-- Range coordinate of a Cartesian point relative to the polar origin, after
rotating by `rot` about the vertical axis (spec 4.2: "compute its (r, sin
theta) relative to origin (optionally rotated by rotation)"). -/
def p2cR (o : Pos3) (rot x y : ℝ) : ℝ :=
  Real.sqrt (((x - o.x) * Real.cos rot + (y - o.y) * Real.sin rot) ^ 2 +
    (-(x - o.x) * Real.sin rot + (y - o.y) * Real.cos rot) ^ 2)

/-- Sine-of-angle coordinate of a Cartesian point relative to the polar
origin (0 when the point coincides with the origin). -/
def p2cS (o : Pos3) (rot x y : ℝ) : ℝ :=
  if p2cR o rot x y = 0 then 0
  else (-(x - o.x) * Real.sin rot + (y - o.y) * Real.cos rot) / p2cR o rot x y

/-- Membership of an `(r, s)` location in the interpolatable region of a
polar grid, from the first to the last sample center. -/
def inPolarBounds (g : PolarGrid) (r s : ℝ) : Prop :=
  g.r0 ≤ r ∧ r ≤ rAt g (g.nr - 1) ∧ g.t0 ≤ s ∧ s ≤ tAt g (g.nt - 1)

instance (g : PolarGrid) (r s : ℝ) : Decidable (inPolarBounds g r s) := by
  unfold inPolarBounds
  infer_instance

/-- Modelled from the spec: `torchbp.ops.polar_to_cart_linear` (spec 4.2).
For each Cartesian cell it computes the cell's `(r, sin theta)` relative to
the origin, interpolates the polar image there after removing each polar
sample's carrier phase, and re-applies the carrier phase of the exact
analytic range; out-of-bounds cells are zero-valued. -/
def polar_to_cart_linear (img : Image2) (origin : Pos3) (gp : PolarGrid)
    (gc : CartGrid) (fc rot : ℝ) : Image2 :=
  ⟨gc.nx, gc.ny, fun u v =>
    if inPolarBounds gp (p2cR origin rot (xAt gc u) (yAt gc v))
        (p2cS origin rot (xAt gc u) (yAt gc v)) then
      interp2
          (fun i j => img.pix i j *
            Complex.exp ((((4 * Real.pi * fc * rAt gp i) / cLight : ℝ) : ℂ) *
              Complex.I))
          gp.nr gp.nt
          ((p2cR origin rot (xAt gc u) (yAt gc v) - gp.r0) / rStep gp)
          ((p2cS origin rot (xAt gc u) (yAt gc v) - gp.t0) / tStep gp) *
        carrier fc (p2cR origin rot (xAt gc u) (yAt gc v))
    else 0⟩

/-- Total image intensity, accumulated cell by cell. -/
def intensitySum (im : Image2) : ℝ :=
  accumLoop (fun i => accumLoop (fun j => Complex.abs (im.pix i j) ^ 2) im.nc)
    im.nr

/-- Modelled from the spec: `torchbp.util.entropy` (spec 4.4).  Computes the
image intensity, normalizes it to a probability-like distribution over all
cells and returns the negative accumulated sum of `p * log p`; `Real.log 0 =
0`, so `0 * log 0` contributes `0`.  A pure function of the image, so the
input is never mutated. -/
def entropy (im : Image2) : ℝ :=
  -(accumLoop (fun i => accumLoop (fun j =>
      Complex.abs (im.pix i j) ^ 2 / intensitySum im *
        Real.log (Complex.abs (im.pix i j) ^ 2 / intensitySum im)) im.nc)
    im.nr)

/-- Clamped indices are always in bounds of a nonempty profile. -/
theorem clampIdx_lt {n : ℕ} (h : 0 < n) (z : ℤ) : clampIdx n z < n :=
  lt_of_le_of_lt (min_le_right _ _) (Nat.sub_lt h Nat.one_pos)

/-- At an exactly integral fractional index the clamped linear interpolation
reads off the profile at the clamped index. -/
theorem interpLin_intCast (prof : ℕ → ℂ) (n : ℕ) (z : ℤ) :
    interpLin prof n ((z : ℤ) : ℝ) = prof (clampIdx n z) := by
  unfold interpLin
  rw [Int.floor_intCast]
  simp

/-- Natural-number specialization of `interpLin_intCast`. -/
theorem interpLin_natCast (prof : ℕ → ℂ) (n k : ℕ) :
    interpLin prof n (k : ℝ) = prof (min k (n - 1)) := by
  have h := interpLin_intCast prof n (k : ℤ)
  rw [Int.cast_natCast] at h
  rw [h]
  unfold clampIdx
  rw [Int.toNat_natCast]

/-- Carrier phase at zero distance is unity. -/
theorem carrier_zero (fc : ℝ) : carrier fc 0 = 1 := by
  simp [carrier]

end Torchbp

namespace Torchbp

/-- C3: for every grid cell of either backprojection operator, the output
value equals the coherent sum (not the average) over all sweeps of the range
profile interpolated at the fractional range index corresponding to the
platform-to-cell distance `d`, multiplied by the carrier-phase correction
`exp(-j 4 pi fc d / c)`. -/
theorem C3_backproject_cell_coherent_sum (data : RangeProfile) (fc r_res : ℝ)
    (traj : Traj) (dealias : Bool) :
    (∀ (g : PolarGrid) (b i j : ℕ),
      (backprojection_polar_2d data g fc r_res traj dealias).pix b i j =
        ∑ k ∈ Finset.range data.nsweeps,
          interpLin (data.sample k) data.nbins
              (rangeIndex dealias
                (dist3 (traj.pos k)
                  (polarCellPos (trajMean traj) (rAt g i) (tAt g j)))
                r_res (rAt g i) data.nbins) *
            carrier fc
              (dist3 (traj.pos k)
                (polarCellPos (trajMean traj) (rAt g i) (tAt g j)))) ∧
    (∀ (g : CartGrid) (b u v : ℕ),
      (backprojection_cart_2d data g fc r_res traj dealias).pix b u v =
        ∑ k ∈ Finset.range data.nsweeps,
          interpLin (data.sample k) data.nbins
              (rangeIndex dealias
                (dist3 (traj.pos k) (cartCellPos (xAt g u) (yAt g v))) r_res
                (dist3 (cartCellPos (xAt g u) (yAt g v)) (trajMean traj))
                data.nbins) *
            carrier fc
              (dist3 (traj.pos k) (cartCellPos (xAt g u) (yAt g v)))) := by
  constructor
  · intro g b i j
    simp only [backprojection_polar_2d, bpPix, accumLoop_eq_sum, sweepContrib]
  · intro g b u v
    simp only [backprojection_cart_2d, bpPix, accumLoop_eq_sum, sweepContrib]

/-- C5: when the platform position at sweep `k` coincides with the grid cell
(`d = 0`), no division fault occurs: the fractional range index is `0`, every
clamped profile access stays in bounds, and the sweep's contribution is the
well-defined value `profile[0]` (clamped index, unit carrier phase), so the
rest of the image computation proceeds. -/
theorem C5_zero_distance_clamped (data : RangeProfile) (traj : Traj)
    (fc r_res rnom : ℝ) (p : Pos3) (k : ℕ) (h0 : 0 < data.nbins)
    (hd : dist3 (traj.pos k) p = 0) :
    rangeIndex false (dist3 (traj.pos k) p) r_res rnom data.nbins = 0 ∧
    (∀ z : ℤ, clampIdx data.nbins z < data.nbins) ∧
    sweepContrib data traj fc r_res false p rnom k = data.sample k 0 := by
  have hidx : rangeIndex false (dist3 (traj.pos k) p) r_res rnom data.nbins
      = 0 := by
    rw [hd]
    simp [rangeIndex]
  refine ⟨hidx, fun z => clampIdx_lt h0 z, ?_⟩
  unfold sweepContrib
  rw [hidx, hd, carrier_zero, mul_one]
  have h00 : ((0 : ℝ)) = (((0 : ℤ) : ℤ) : ℝ) := by norm_num
  rw [h00, interpLin_intCast]
  simp [clampIdx]

/-- C5 witness: a concrete sweep whose platform position coincides with the
cell. -/
theorem C5_zero_distance_clamped_witness :
    (0 : ℕ) < 4 ∧ dist3 (Traj.pos ⟨1, fun _ => ⟨2, 3, 0⟩⟩ 0) ⟨2, 3, 0⟩ = 0 ∧
    sweepContrib ⟨1, 4, fun _ _ => 7⟩ ⟨1, fun _ => ⟨2, 3, 0⟩⟩ 5 1 false
      ⟨2, 3, 0⟩ 2 0 = (⟨1, 4, fun _ _ => 7⟩ : RangeProfile).sample 0 0 := by
  have hd : dist3 (Traj.pos ⟨1, fun _ => ⟨2, 3, 0⟩⟩ 0) ⟨2, 3, 0⟩ = 0 := by
    simp [dist3, Traj.pos]
  exact ⟨by norm_num, hd,
    (C5_zero_distance_clamped ⟨1, 4, fun _ _ => 7⟩ ⟨1, fun _ => ⟨2, 3, 0⟩⟩
      5 1 2 ⟨2, 3, 0⟩ 0 (by norm_num) hd).2.2⟩

/-- C6: a sweep-count mismatch between the range data and the trajectory is a
fatal configuration error: the checked entry point reports it immediately and
never returns an (even partial) image. -/
theorem C6_sweep_mismatch_fatal (data : RangeProfile) (grid : ImageGrid)
    (fc r_res : ℝ) (traj : Traj) (dealias : Bool)
    (h : data.nsweeps ≠ traj.n) :
    backproject data grid fc r_res traj dealias =
      Except.error ConfigError.sweepMismatch ∧
    ∀ im : BImage,
      backproject data grid fc r_res traj dealias ≠ Except.ok im := by
  have he : backproject data grid fc r_res traj dealias =
      Except.error ConfigError.sweepMismatch := by
    unfold backproject
    rw [if_pos h]
  refine ⟨he, fun im hok => ?_⟩
  rw [he] at hok
  exact Except.noConfusion hok

/-- C6 witness: two sweeps of data against a three-point trajectory. -/
theorem C6_sweep_mismatch_fatal_witness :
    (⟨2, 4, fun _ _ => 0⟩ : RangeProfile).nsweeps ≠
      (⟨3, fun _ => ⟨0, 0, 0⟩⟩ : Traj).n ∧
    backproject ⟨2, 4, fun _ _ => 0⟩ (ImageGrid.polar ⟨0, 1, 4, 0, 1, 4⟩) 1 1
        ⟨3, fun _ => ⟨0, 0, 0⟩⟩ false =
      Except.error ConfigError.sweepMismatch :=
  ⟨by decide,
    (C6_sweep_mismatch_fatal ⟨2, 4, fun _ _ => 0⟩
      (ImageGrid.polar ⟨0, 1, 4, 0, 1, 4⟩) 1 1 ⟨3, fun _ => ⟨0, 0, 0⟩⟩ false
      (by decide)).1⟩

/-- C7 counterexample: the polar backprojection operator returns a tensor
with an additional leading singleton batch dimension, so for this concrete
call the output dimension list is `[1, 4, 4]`, not the grid's `[4, 4]` (the
notebooks must call `img.squeeze()` to remove it). -/
theorem C7_counterexample_batch_dim :
    (backprojection_polar_2d ⟨1, 4, fun _ _ => 0⟩ ⟨0, 1, 4, 0, 1, 4⟩ 1 1
        ⟨1, fun _ => ⟨0, 0, 0⟩⟩ false).dims = [1, 4, 4] ∧
    (backprojection_polar_2d ⟨1, 4, fun _ _ => 0⟩ ⟨0, 1, 4, 0, 1, 4⟩ 1 1
        ⟨1, fun _ => ⟨0, 0, 0⟩⟩ false).dims ≠ [4, 4] := by
  constructor
  · rfl
  · intro h
    exact absurd h (by simp [backprojection_polar_2d, BImage.dims])

/-- C7 amended: the engine output matches the producing grid's `(n_r,
n_theta)` or `(n_x, n_y)` once the singleton batch dimension is squeezed
away. -/
theorem C7_amended_shape_after_squeeze (data : RangeProfile) (fc r_res : ℝ)
    (traj : Traj) (dealias : Bool) :
    (∀ g : PolarGrid,
      (squeeze0 (backprojection_polar_2d data g fc r_res traj dealias)).dims =
        [g.nr, g.nt]) ∧
    (∀ g : CartGrid,
      (squeeze0 (backprojection_cart_2d data g fc r_res traj dealias)).dims =
        [g.nx, g.ny]) :=
  ⟨fun _ => rfl, fun _ => rfl⟩

/-- C8: a Cartesian cell whose `(r, sin theta)` location relative to the
origin falls outside the bounds of the source polar grid resamples to the
defined value `0`; no error is raised (the resampler is total). -/
theorem C8_out_of_bounds_zero (img : Image2) (origin : Pos3) (gp : PolarGrid)
    (gc : CartGrid) (fc rot : ℝ) (u v : ℕ)
    (h : ¬ inPolarBounds gp (p2cR origin rot (xAt gc u) (yAt gc v))
      (p2cS origin rot (xAt gc u) (yAt gc v))) :
    (polar_to_cart_linear img origin gp gc fc rot).pix u v = 0 := by
  simp only [polar_to_cart_linear]
  rw [if_neg h]

/-- C8 witness: a Cartesian cell at range 1000 against a polar grid whose
last range sample sits at range 3. -/
theorem C8_out_of_bounds_zero_witness :
    ¬ inPolarBounds ⟨0, 4, 4, -1, 1, 2⟩
      (p2cR ⟨0, 0, 0⟩ 0 (xAt ⟨1000, 1001, 1, 0, 1, 1⟩ 0)
        (yAt ⟨1000, 1001, 1, 0, 1, 1⟩ 0))
      (p2cS ⟨0, 0, 0⟩ 0 (xAt ⟨1000, 1001, 1, 0, 1, 1⟩ 0)
        (yAt ⟨1000, 1001, 1, 0, 1, 1⟩ 0)) ∧
    (polar_to_cart_linear ⟨4, 2, fun _ _ => 1⟩ ⟨0, 0, 0⟩ ⟨0, 4, 4, -1, 1, 2⟩
        ⟨1000, 1001, 1, 0, 1, 1⟩ 1 0).pix 0 0 = 0 := by
  have hx : xAt ⟨1000, 1001, 1, 0, 1, 1⟩ 0 = 1000 := by
    simp [xAt, xStep]
  have hy : yAt ⟨1000, 1001, 1, 0, 1, 1⟩ 0 = 0 := by
    simp [yAt, yStep]
  have hr : p2cR ⟨0, 0, 0⟩ 0 (xAt ⟨1000, 1001, 1, 0, 1, 1⟩ 0)
      (yAt ⟨1000, 1001, 1, 0, 1, 1⟩ 0) = 1000 := by
    rw [hx, hy]
    unfold p2cR
    simp only [Real.cos_zero, Real.sin_zero]
    rw [show ((1000 : ℝ) - 0) * 1 + (0 - 0) * 0 = 1000 by ring,
      show -((1000 : ℝ) - 0) * 0 + (0 - 0) * 1 = 0 by ring]
    rw [show (1000 : ℝ) ^ 2 + 0 ^ 2 = 1000 ^ 2 by ring]
    exact Real.sqrt_sq (by norm_num)
  have hni : ¬ inPolarBounds ⟨0, 4, 4, -1, 1, 2⟩
      (p2cR ⟨0, 0, 0⟩ 0 (xAt ⟨1000, 1001, 1, 0, 1, 1⟩ 0)
        (yAt ⟨1000, 1001, 1, 0, 1, 1⟩ 0))
      (p2cS ⟨0, 0, 0⟩ 0 (xAt ⟨1000, 1001, 1, 0, 1, 1⟩ 0)
        (yAt ⟨1000, 1001, 1, 0, 1, 1⟩ 0)) := by
    rw [hr]
    intro hb
    have h2 := hb.2.1
    rw [show rAt ⟨0, 4, 4, -1, 1, 2⟩ (4 - 1) = 3 by
      simp [rAt, rStep]] at h2
    norm_num at h2
  exact ⟨hni, C8_out_of_bounds_zero _ _ _ _ _ _ _ _ hni⟩

/-- Azimuth-frequency kernel: the `N`-th root of unity raised to the integer
power `j`. -/
def eN (N : ℕ) (j : ℤ) : ℂ :=
  Complex.exp (2 * (Real.pi : ℂ) * Complex.I * (j : ℂ) / (N : ℂ))

/-- Zero exponent gives the unit kernel. -/
theorem eN_zero (N : ℕ) : eN N 0 = 1 := by
  simp [eN]

/-- The kernel turns sums of exponents into products. -/
theorem eN_add (N : ℕ) (a b : ℤ) : eN N (a + b) = eN N a * eN N b := by
  unfold eN
  rw [← Complex.exp_add]
  congr 1
  push_cast
  ring

/-- The kernel at `j * k` is the `k`-th power of the kernel at `j`. -/
theorem eN_mul_natCast (N : ℕ) (j : ℤ) (k : ℕ) :
    eN N (j * k) = eN N j ^ k := by
  unfold eN
  rw [← Complex.exp_nat_mul]
  congr 1
  push_cast
  ring

/-- Root-of-unity orthogonality: over a full period the kernel sums to `N`
for the zero exponent and to `0` for any other exponent smaller than a full
period. -/
theorem sum_eN (N : ℕ) (hN : 0 < N) (j : ℤ) (h1 : -(N : ℤ) < j)
    (h2 : j < (N : ℤ)) :
    ∑ k ∈ Finset.range N, eN N (j * k) = if j = 0 then (N : ℂ) else 0 := by
  by_cases hj : j = 0
  · subst hj
    simp [eN_zero]
  · rw [if_neg hj]
    have hN0 : (N : ℂ) ≠ 0 := Nat.cast_ne_zero.2 hN.ne'
    have hπ : (2 * (Real.pi : ℂ) * Complex.I) ≠ 0 := by
      simp [Real.pi_ne_zero, Complex.I_ne_zero]
    have hζN : eN N j ^ N = 1 := by
      unfold eN
      rw [← Complex.exp_nat_mul]
      rw [show (N : ℂ) * (2 * (Real.pi : ℂ) * Complex.I * (j : ℂ) / (N : ℂ))
          = (j : ℂ) * (2 * (Real.pi : ℂ) * Complex.I) by
        field_simp
        ring]
      exact Complex.exp_int_mul_two_pi_mul_I j
    have hζ1 : eN N j ≠ 1 := by
      intro h
      rw [eN, Complex.exp_eq_one_iff] at h
      obtain ⟨n, hn⟩ := h
      have h2' : (j : ℂ) * (2 * (Real.pi : ℂ) * Complex.I) =
          ((n * N : ℤ) : ℂ) * (2 * (Real.pi : ℂ) * Complex.I) := by
        field_simp at hn
        push_cast
        linear_combination hn
      have h3 : (j : ℂ) = ((n * N : ℤ) : ℂ) := mul_right_cancel₀ hπ h2'
      have h4 : j = n * N := by exact_mod_cast h3
      have hn0 : n ≠ 0 := by
        intro hn0
        apply hj
        rw [h4, hn0, zero_mul]
      have hNpos : (0 : ℤ) < (N : ℤ) := by exact_mod_cast hN
      rcases hn0.lt_or_lt with hneg | hpos
      · have hle : n * (N : ℤ) ≤ -1 * (N : ℤ) :=
          mul_le_mul_of_nonneg_right (by omega) (le_of_lt hNpos)
        linarith [h4 ▸ h1]
      · have hle : 1 * (N : ℤ) ≤ n * (N : ℤ) :=
          mul_le_mul_of_nonneg_right (by omega) (le_of_lt hNpos)
        linarith [h4 ▸ h2]
    have hgeom := geom_sum_eq hζ1 N
    calc ∑ k ∈ Finset.range N, eN N (j * k)
        = ∑ k ∈ Finset.range N, eN N j ^ k := by
          refine Finset.sum_congr rfl fun k _ => ?_
          exact eN_mul_natCast N j k
      _ = (eN N j ^ N - 1) / (eN N j - 1) := hgeom
      _ = 0 := by rw [hζN]; simp

/-- Discrete Fourier transform along the azimuth axis (torch convention:
negative exponent, no scaling), as run once per range row (spec 4.3
step 2). -/
def fftN (N : ℕ) (x : ℕ → ℂ) (k : ℕ) : ℂ :=
  ∑ m ∈ Finset.range N, x m * eN N (-((k : ℤ) * (m : ℤ)))

/-- Inverse discrete Fourier transform (positive exponent, `1/N` scaling). -/
def ifftN (N : ℕ) (y : ℕ → ℂ) (m : ℕ) : ℂ :=
  ((N : ℂ))⁻¹ * ∑ k ∈ Finset.range N, y k * eN N ((k : ℤ) * (m : ℤ))

/-- Fourier inversion: the inverse transform undoes the forward transform on
every in-range sample. -/
theorem ifftN_fftN (N : ℕ) (hN : 0 < N) (x : ℕ → ℂ) (m : ℕ) (hm : m < N) :
    ifftN N (fftN N x) m = x m := by
  have hN0 : (N : ℂ) ≠ 0 := Nat.cast_ne_zero.2 hN.ne'
  unfold ifftN fftN
  have hswap : ∑ k ∈ Finset.range N,
      (∑ m' ∈ Finset.range N, x m' * eN N (-((k : ℤ) * (m' : ℤ)))) *
        eN N ((k : ℤ) * (m : ℤ)) =
      ∑ m' ∈ Finset.range N, x m' *
        ∑ k ∈ Finset.range N, eN N (((m : ℤ) - (m' : ℤ)) * (k : ℤ)) := by
    calc ∑ k ∈ Finset.range N,
        (∑ m' ∈ Finset.range N, x m' * eN N (-((k : ℤ) * (m' : ℤ)))) *
          eN N ((k : ℤ) * (m : ℤ))
        = ∑ k ∈ Finset.range N, ∑ m' ∈ Finset.range N,
            x m' * eN N (-((k : ℤ) * (m' : ℤ))) * eN N ((k : ℤ) * (m : ℤ)) := by
          refine Finset.sum_congr rfl fun k _ => ?_
          rw [Finset.sum_mul]
      _ = ∑ m' ∈ Finset.range N, ∑ k ∈ Finset.range N,
            x m' * eN N (-((k : ℤ) * (m' : ℤ))) * eN N ((k : ℤ) * (m : ℤ)) :=
          Finset.sum_comm
      _ = ∑ m' ∈ Finset.range N, x m' *
            ∑ k ∈ Finset.range N, eN N (((m : ℤ) - (m' : ℤ)) * (k : ℤ)) := by
          refine Finset.sum_congr rfl fun m' _ => ?_
          rw [Finset.mul_sum]
          refine Finset.sum_congr rfl fun k _ => ?_
          rw [show x m' * eN N (-((k : ℤ) * (m' : ℤ))) *
                eN N ((k : ℤ) * (m : ℤ))
              = x m' * (eN N (-((k : ℤ) * (m' : ℤ))) *
                eN N ((k : ℤ) * (m : ℤ))) by ring, ← eN_add]
          congr 2
          ring
  rw [hswap]
  have hside : ∀ m' ∈ Finset.range N, m' ≠ m →
      x m' * ∑ k ∈ Finset.range N, eN N (((m : ℤ) - (m' : ℤ)) * (k : ℤ)) = 0 := by
    intro m' hm' hne
    rw [sum_eN N hN ((m : ℤ) - (m' : ℤ))
      (by
        have := Finset.mem_range.1 hm'
        omega)
      (by omega)]
    rw [if_neg (by
      intro h
      apply hne
      omega)]
    exact mul_zero _
  rw [Finset.sum_eq_single_of_mem m (Finset.mem_range.2 hm) hside]
  simp only [sub_self, zero_mul, eN_zero]
  rw [Finset.sum_const, Finset.card_range]
  simp only [nsmul_eq_mul, mul_one]
  field_simp

/-- Fourier inversion in the other direction: the forward transform undoes
the inverse transform on every in-range frequency index. -/
theorem fftN_ifftN (N : ℕ) (hN : 0 < N) (y : ℕ → ℂ) (k : ℕ) (hk : k < N) :
    fftN N (ifftN N y) k = y k := by
  have hN0 : (N : ℂ) ≠ 0 := Nat.cast_ne_zero.2 hN.ne'
  unfold ifftN fftN
  have hswap : ∑ m ∈ Finset.range N,
      (((N : ℂ))⁻¹ *
          ∑ k' ∈ Finset.range N, y k' * eN N ((k' : ℤ) * (m : ℤ))) *
        eN N (-((k : ℤ) * (m : ℤ))) =
      ((N : ℂ))⁻¹ * ∑ k' ∈ Finset.range N, y k' *
        ∑ m ∈ Finset.range N, eN N (((k' : ℤ) - (k : ℤ)) * (m : ℤ)) := by
    rw [Finset.mul_sum]
    calc ∑ m ∈ Finset.range N,
        (((N : ℂ))⁻¹ *
            ∑ k' ∈ Finset.range N, y k' * eN N ((k' : ℤ) * (m : ℤ))) *
          eN N (-((k : ℤ) * (m : ℤ)))
        = ∑ m ∈ Finset.range N, ∑ k' ∈ Finset.range N,
            ((N : ℂ))⁻¹ * (y k' * eN N ((k' : ℤ) * (m : ℤ))) *
              eN N (-((k : ℤ) * (m : ℤ))) := by
          refine Finset.sum_congr rfl fun m _ => ?_
          rw [Finset.mul_sum, Finset.sum_mul]
      _ = ∑ k' ∈ Finset.range N, ∑ m ∈ Finset.range N,
            ((N : ℂ))⁻¹ * (y k' * eN N ((k' : ℤ) * (m : ℤ))) *
              eN N (-((k : ℤ) * (m : ℤ))) := Finset.sum_comm
      _ = ∑ k' ∈ Finset.range N, ((N : ℂ))⁻¹ * (y k' *
            ∑ m ∈ Finset.range N, eN N (((k' : ℤ) - (k : ℤ)) * (m : ℤ))) := by
          refine Finset.sum_congr rfl fun k' _ => ?_
          simp only [Finset.mul_sum]
          refine Finset.sum_congr rfl fun m _ => ?_
          rw [show ((k' : ℤ) - (k : ℤ)) * (m : ℤ)
              = (k' : ℤ) * (m : ℤ) + -((k : ℤ) * (m : ℤ)) by ring, eN_add]
          ring
  rw [hswap]
  have hside : ∀ k' ∈ Finset.range N, k' ≠ k →
      y k' * ∑ m ∈ Finset.range N, eN N (((k' : ℤ) - (k : ℤ)) * (m : ℤ)) = 0 := by
    intro k' hk' hne
    rw [sum_eN N hN ((k' : ℤ) - (k : ℤ))
      (by omega)
      (by
        have := Finset.mem_range.1 hk'
        omega)]
    rw [if_neg (by
      intro h
      apply hne
      omega)]
    exact mul_zero _
  rw [Finset.sum_eq_single_of_mem k (Finset.mem_range.2 hk) hside]
  simp only [sub_self, zero_mul, eN_zero]
  rw [Finset.sum_const, Finset.card_range]
  simp only [nsmul_eq_mul, mul_one]
  field_simp

/-- Circular shift of an azimuth row by `s` samples (the sample at index `s`
moves to index `0`). -/
def cshiftN (N : ℕ) (x : ℕ → ℂ) (s : ℕ) : ℕ → ℂ := fun m => x ((m + s) % N)

/-- Scanning loop returning the first index attaining the running maximum of
`g` over indices `0..k`. -/
def argmaxLoop (g : ℕ → ℝ) : ℕ → ℕ
  | 0 => 0
  | k + 1 => if g (argmaxLoop g k) < g (k + 1) then k + 1 else argmaxLoop g k

/-- Dominant-sample search over `N` samples, ties broken toward the lowest
index (spec 4.3, edge conditions). -/
def argmaxN (N : ℕ) (g : ℕ → ℝ) : ℕ := argmaxLoop g (N - 1)

/-- Index of the dominant-magnitude azimuth sample of a row (spec 4.3
step 1). -/
def rowPeakIdx (N : ℕ) (row : ℕ → ℂ) : ℕ :=
  argmaxN N (fun m => Complex.abs (row m))

/-- Row centering: circularly shift a range row so its dominant sample sits
at the fixed reference position `0` (spec 4.3 step 1). -/
def pgaCentered (na : ℕ) (img : ℕ → ℕ → ℂ) (r : ℕ) : ℕ → ℂ :=
  cshiftN na (img r) (rowPeakIdx na (img r))

/-- Azimuth-frequency spectrum of a centered range row (spec 4.3 step 2). -/
def pgaSpectrum (na : ℕ) (img : ℕ → ℕ → ℂ) (r n : ℕ) : ℂ :=
  fftN na (pgaCentered na img r) n

/-- Adjacent-frequency cross term `spectrum[n] * conj(spectrum[n-1])`
aggregated over all range rows (spec 4.3 step 3). -/
def pgaCross (nr na : ℕ) (img : ℕ → ℕ → ℂ) (n : ℕ) : ℂ :=
  ∑ r ∈ Finset.range nr,
    pgaSpectrum na img r n * (starRingEnd ℂ) (pgaSpectrum na img r (n - 1))

/-- Modelled from the spec: the two pga estimator choices, phase-difference
(`"pd"`) and maximum-likelihood (`"ml"`). -/
inductive PhaseEst where
  | pd
  | ml

/-- Signal-magnitude-squared weighting sum of the ML estimator. -/
def pgaWeight (nr na : ℕ) (img : ℕ → ℕ → ℂ) (n : ℕ) : ℝ :=
  ∑ r ∈ Finset.range nr, Complex.abs (pgaSpectrum na img r n) ^ 2

/-- Modelled from the spec: the differential phase increment at frequency
`n` (spec 4.3 step 3).  Phase-difference estimator: angle of the cross-term
sum.  Maximum-likelihood estimator: magnitude-squared-weighted mean of the
per-row instantaneous phase differences, with a zero increment as the
fallback for a zero-magnitude weighting sum (spec 4.3 edge conditions). -/
def pgaIncrement (nr na : ℕ) (est : PhaseEst) (img : ℕ → ℕ → ℂ) (n : ℕ) : ℝ :=
  match est with
  | .pd => Complex.arg (pgaCross nr na img n)
  | .ml =>
    if pgaWeight nr na img n = 0 then 0
    else
      (∑ r ∈ Finset.range nr, Complex.abs (pgaSpectrum na img r n) ^ 2 *
          Complex.arg (pgaSpectrum na img r n *
            (starRingEnd ℂ) (pgaSpectrum na img r (n - 1)))) /
        pgaWeight nr na img n

/-- Integrated (cumulative-sum) phase-error curve (spec 4.3 step 4);
`phi 0 = 0`. -/
def pgaPhiRaw (nr na : ℕ) (est : PhaseEst) (img : ℕ → ℕ → ℂ) (m : ℕ) : ℝ :=
  ∑ k ∈ Finset.range m, pgaIncrement nr na est img (k + 1)

/-- Least-squares slope of the best-fit line through the phase curve over
the `na` azimuth-frequency samples (0 when the fit is degenerate). -/
def linFitB (na : ℕ) (φ : ℕ → ℝ) : ℝ :=
  if (∑ n ∈ Finset.range na,
      ((n : ℝ) - (∑ n' ∈ Finset.range na, (n' : ℝ)) / na) ^ 2) = 0 then 0
  else
    (∑ n ∈ Finset.range na,
        ((n : ℝ) - (∑ n' ∈ Finset.range na, (n' : ℝ)) / na) *
          (φ n - (∑ n' ∈ Finset.range na, φ n') / na)) /
      (∑ n ∈ Finset.range na,
        ((n : ℝ) - (∑ n' ∈ Finset.range na, (n' : ℝ)) / na) ^ 2)

/-- Least-squares intercept of the best-fit line through the phase curve. -/
def linFitA (na : ℕ) (φ : ℕ → ℝ) : ℝ :=
  (∑ n' ∈ Finset.range na, φ n') / na -
    linFitB na φ * ((∑ n' ∈ Finset.range na, (n' : ℝ)) / na)

/-- Subtract the best-fit linear component of the phase curve (spec 4.3
step 5). -/
def detrend (na : ℕ) (φ : ℕ → ℝ) : ℕ → ℝ :=
  fun n => φ n - (linFitA na φ + linFitB na φ * n)

/-- Phase-error curve of one PGA iteration, detrended when `rt` is set. -/
def pgaPhase (nr na : ℕ) (est : PhaseEst) (rt : Bool) (img : ℕ → ℕ → ℂ) :
    ℕ → ℝ :=
  if rt then detrend na (pgaPhiRaw nr na est img)
  else pgaPhiRaw nr na est img

/-- Multiply every row's azimuth spectrum by a frequency-domain factor and
transform back to the azimuth domain (spec 4.3 step 6; also the notebooks'
corruption and reconstruction formulas). -/
def modulateSpectrum (na : ℕ) (img : ℕ → ℕ → ℂ) (ph : ℕ → ℂ) :
    ℕ → ℕ → ℂ :=
  fun r m => ifftN na (fun n => fftN na (img r) n * ph n) m

/-- Inject a phase-error curve into the azimuth spectrum of an image (the
notebooks' `img_corrupted` construction: multiply the azimuth FFT by
`exp(j phi)` and inverse transform). -/
def injectPhase (na : ℕ) (img : ℕ → ℕ → ℂ) (φ : ℕ → ℝ) : ℕ → ℕ → ℂ :=
  modulateSpectrum na img (fun n => Complex.exp (((φ n : ℝ) : ℂ) * Complex.I))

/-- Refined image produced by one PGA iteration: the input image's spectrum
multiplied row-wise by `exp(-j phi)` and inverse transformed (spec 4.3
step 6). -/
def pgaIterImg (nr na : ℕ) (est : PhaseEst) (rt : Bool)
    (img : ℕ → ℕ → ℂ) : ℕ → ℕ → ℂ :=
  modulateSpectrum na img
    (fun n => Complex.exp (-((pgaPhase nr na est rt img n : ℝ) : ℂ) *
      Complex.I))

/-- Modelled from the spec: `torchbp.autofocus.pga` (spec 4.3), iterated a
bounded number of times; each iteration centers rows, estimates and
integrates the differential phase, optionally removes the linear trend, and
corrects the spectrum; the returned phase-error curve accumulates the
per-iteration curves. -/
def pga (nr na : ℕ) (est : PhaseEst) (rt : Bool) :
    ℕ → (ℕ → ℕ → ℂ) → (ℕ → ℕ → ℂ) × (ℕ → ℝ)
  | 0, img => (img, fun _ => 0)
  | k + 1, img =>
    ((pga nr na est rt k (pgaIterImg nr na est rt img)).1,
      fun n => pgaPhase nr na est rt img n +
        (pga nr na est rt k (pgaIterImg nr na est rt img)).2 n)

/-- C9: `entropy` returns the scalar `-(sum of p * log p)` where `p` is the
image intensity normalized to a probability-like distribution over all cells
(`Real.log 0 = 0`, so a zero-intensity cell contributes `0 * log 0 = 0`); as
a pure function it cannot mutate its input. -/
theorem C9_entropy_formula (im : Image2) :
    entropy im =
      -(∑ i ∈ Finset.range im.nr, ∑ j ∈ Finset.range im.nc,
        Complex.abs (im.pix i j) ^ 2 /
            (∑ a ∈ Finset.range im.nr, ∑ b ∈ Finset.range im.nc,
              Complex.abs (im.pix a b) ^ 2) *
          Real.log (Complex.abs (im.pix i j) ^ 2 /
            (∑ a ∈ Finset.range im.nr, ∑ b ∈ Finset.range im.nc,
              Complex.abs (im.pix a b) ^ 2))) := by
  unfold entropy intensitySum
  simp only [accumLoop_eq_sum]

end Torchbp

namespace Torchbp

/-- C10: the two return values of `pga` are mutually consistent: for every
input image and iteration count, the refined image equals the inverse
azimuth FFT of the input image's azimuth FFT multiplied by
`exp(-j phi)`, where `phi` is the phase-error curve returned by the same
call (the notebooks' `img_focused` reconstruction). -/
theorem C10_pga_output_consistent (nr na : ℕ) (hna : 0 < na)
    (est : PhaseEst) (rt : Bool) (iters : ℕ) (img : ℕ → ℕ → ℂ) (r m : ℕ)
    (hm : m < na) :
    (pga nr na est rt iters img).1 r m =
      ifftN na (fun n => fftN na (img r) n *
        Complex.exp (-(((pga nr na est rt iters img).2 n : ℝ) : ℂ) *
          Complex.I)) m := by
  induction iters generalizing img with
  | zero =>
    have hfun : (fun n => fftN na (img r) n *
        Complex.exp (-(((pga nr na est rt 0 img).2 n : ℝ) : ℂ) *
          Complex.I)) = fftN na (img r) := by
      funext n
      simp [pga]
    rw [hfun, ifftN_fftN na hna (img r) m hm]
    rfl
  | succ k ih =>
    have hL : (pga nr na est rt (k + 1) img).1 r m =
        (pga nr na est rt k (pgaIterImg nr na est rt img)).1 r m := rfl
    rw [hL, ih (pgaIterImg nr na est rt img)]
    unfold ifftN
    congr 1
    refine Finset.sum_congr rfl fun n hn => ?_
    have hn' : n < na := Finset.mem_range.1 hn
    have himg1 : pgaIterImg nr na est rt img r =
        ifftN na (fun n' => fftN na (img r) n' *
          Complex.exp (-((pgaPhase nr na est rt img n' : ℝ) : ℂ) *
            Complex.I)) := rfl
    have hfft : fftN na (pgaIterImg nr na est rt img r) n =
        fftN na (img r) n *
          Complex.exp (-((pgaPhase nr na est rt img n : ℝ) : ℂ) *
            Complex.I) := by
      rw [himg1, fftN_ifftN na hna _ n hn']
    simp only []
    rw [hfft]
    have hphi : (pga nr na est rt (k + 1) img).2 n =
        pgaPhase nr na est rt img n +
          (pga nr na est rt k (pgaIterImg nr na est rt img)).2 n := rfl
    rw [hphi]
    have hexp : Complex.exp (-((pgaPhase nr na est rt img n : ℝ) : ℂ) *
          Complex.I) *
        Complex.exp
          (-(((pga nr na est rt k (pgaIterImg nr na est rt img)).2 n : ℝ) :
            ℂ) * Complex.I) =
        Complex.exp (-((pgaPhase nr na est rt img n +
          (pga nr na est rt k (pgaIterImg nr na est rt img)).2 n : ℝ) : ℂ) *
          Complex.I) := by
      rw [← Complex.exp_add]
      congr 1
      push_cast
      ring
    rw [← hexp]
    ring

/-- C10 witness: a concrete call at one azimuth sample. -/
theorem C10_pga_output_consistent_witness :
    (0 : ℕ) < 1 ∧
    (pga 1 1 PhaseEst.pd false 0 (fun _ _ => 1)).1 0 0 =
      ifftN 1 (fun n => fftN 1 ((fun _ _ => (1 : ℂ)) 0) n *
        Complex.exp (-(((pga 1 1 PhaseEst.pd false 0 (fun _ _ => 1)).2 n :
          ℝ) : ℂ) * Complex.I)) 0 :=
  ⟨Nat.one_pos,
    C10_pga_output_consistent 1 1 Nat.one_pos PhaseEst.pd false 0
      (fun _ _ => 1) 0 0 Nat.one_pos⟩

end Torchbp

namespace Torchbp

/-- The scanning argmax returns index 0 when no later sample strictly beats
the first (the tie-break toward the lowest index). -/
theorem argmaxLoop_eq_zero (g : ℕ → ℝ) (K : ℕ)
    (h : ∀ m, m ≤ K → g m ≤ g 0) : argmaxLoop g K = 0 := by
  induction K with
  | zero => rfl
  | succ k ih =>
    have h0 : argmaxLoop g k = 0 :=
      ih fun m hm => h m (le_trans hm (Nat.le_succ k))
    simp only [argmaxLoop, h0]
    rw [if_neg (not_lt.2 (h (k + 1) le_rfl))]

/-- A circular shift by 0 does not change the spectrum. -/
theorem fftN_cshiftN_zero (N : ℕ) (x : ℕ → ℂ) (n : ℕ) :
    fftN N (cshiftN N x 0) n = fftN N x n := by
  unfold fftN cshiftN
  refine Finset.sum_congr rfl fun m hm => ?_
  rw [Nat.add_zero, Nat.mod_eq_of_lt (Finset.mem_range.1 hm)]

/-- The spectrum of a row that is zero away from azimuth sample 0 is the
constant value at sample 0. -/
theorem fftN_delta (N : ℕ) (hN : 0 < N) (x : ℕ → ℂ)
    (hx : ∀ m, 0 < m → m < N → x m = 0) (n : ℕ) :
    fftN N x n = x 0 := by
  unfold fftN
  rw [Finset.sum_eq_single 0]
  · rw [show -((n : ℤ) * ((0 : ℕ) : ℤ)) = 0 by simp, eN_zero, mul_one]
  · intro m hm hne
    rw [hx m (Nat.pos_of_ne_zero hne) (Finset.mem_range.1 hm), zero_mul]
  · intro h0
    exact absurd (Finset.mem_range.2 hN) h0

/-- The argument of a positive real multiple of a unit phasor with phase in
the principal interval is that phase. -/
theorem arg_pos_mul_exp (E θ : ℝ) (hE : 0 < E)
    (hθ : θ ∈ Set.Ioc (-Real.pi) Real.pi) :
    Complex.arg ((E : ℂ) * Complex.exp ((θ : ℂ) * Complex.I)) = θ := by
  rw [Complex.arg_real_mul _ hE]
  rw [Complex.arg_exp_mul_I]
  refine (toIocMod_eq_self _).2 ?_
  rw [show -Real.pi + 2 * Real.pi = Real.pi by ring]
  exact hθ

/-- Conjugating a unit phasor with real phase negates the phase. -/
theorem conj_exp_ofReal_mul_I (θ : ℝ) :
    (starRingEnd ℂ) (Complex.exp ((θ : ℂ) * Complex.I)) =
      Complex.exp (-(θ : ℂ) * Complex.I) := by
  rw [← Complex.exp_conj]
  congr 1
  rw [map_mul, Complex.conj_ofReal, Complex.conj_I]
  ring

/-- Spectrum of a row after phase injection: the clean row's spectrum
multiplied by the injected unit phasor. -/
theorem fftN_injectPhase (na : ℕ) (hna : 0 < na) (img : ℕ → ℕ → ℂ)
    (φ : ℕ → ℝ) (r n : ℕ) (hn : n < na) :
    fftN na (injectPhase na img φ r) n =
      fftN na (img r) n * Complex.exp (((φ n : ℝ) : ℂ) * Complex.I) := by
  have hrow : injectPhase na img φ r =
      ifftN na (fun n' => fftN na (img r) n' *
        Complex.exp (((φ n' : ℝ) : ℂ) * Complex.I)) := rfl
  rw [hrow, fftN_ifftN na hna _ n hn]

end Torchbp

namespace Torchbp

/-- C1: PGA round-trip.  For a focused image whose range rows are
azimuth-domain point responses (all energy at the reference sample 0, total
energy positive), injecting a phase-error curve `phi` with `phi 0 = 0` and
per-sample increments inside the principal interval into the azimuth
spectrum and running one iteration of `pga` with the phase-difference
estimator recovers the phase-error curve exactly (the correction
`exp(-j phi)` cancels the injected `exp(+j phi)`, i.e. the returned curve is
the negative of the injected correction curve), and the refined image equals
the original focused image; with `remove_trend` set the recovered curve
differs from the injected one by exactly a linear term. -/
theorem C1_pga_roundtrip (nr na : ℕ) (hna : 0 < na) (img : ℕ → ℕ → ℂ)
    (φ : ℕ → ℝ)
    (hdelta : ∀ r, r < nr → ∀ m, 0 < m → m < na → img r m = 0)
    (henergy : 0 < ∑ r ∈ Finset.range nr, Complex.abs (img r 0) ^ 2)
    (hphi0 : φ 0 = 0)
    (hdphi : ∀ n, 1 ≤ n → n < na →
      φ n - φ (n - 1) ∈ Set.Ioc (-Real.pi) Real.pi)
    (hpeak : ∀ r, r < nr → ∀ m, m < na →
      Complex.abs (injectPhase na img φ r m) ≤
        Complex.abs (injectPhase na img φ r 0)) :
    (∀ n, n < na →
      (pga nr na PhaseEst.pd false 1 (injectPhase na img φ)).2 n = φ n) ∧
    (∀ r m, m < na →
      (pga nr na PhaseEst.pd false 1 (injectPhase na img φ)).1 r m =
        img r m) ∧
    (∃ a b : ℝ, ∀ n, n < na →
      (pga nr na PhaseEst.pd true 1 (injectPhase na img φ)).2 n =
        φ n - (a + b * (n : ℝ))) := by
  have hpeakidx : ∀ r, r < nr → rowPeakIdx na (injectPhase na img φ r) = 0 := by
    intro r hr
    unfold rowPeakIdx argmaxN
    apply argmaxLoop_eq_zero
    intro m hm
    exact hpeak r hr m (by omega)
  have hS : ∀ r, r < nr → ∀ n, n < na →
      pgaSpectrum na (injectPhase na img φ) r n =
        img r 0 * Complex.exp (((φ n : ℝ) : ℂ) * Complex.I) := by
    intro r hr n hn
    unfold pgaSpectrum pgaCentered
    rw [hpeakidx r hr, fftN_cshiftN_zero]
    rw [fftN_injectPhase na hna img φ r n hn]
    rw [fftN_delta na hna (img r) (hdelta r hr) n]
  have hE : 0 < ∑ r ∈ Finset.range nr, Complex.normSq (img r 0) := by
    calc (0 : ℝ) < ∑ r ∈ Finset.range nr, Complex.abs (img r 0) ^ 2 := henergy
      _ = ∑ r ∈ Finset.range nr, Complex.normSq (img r 0) :=
        Finset.sum_congr rfl fun r _ => Complex.sq_abs _
  have hcross : ∀ n, 1 ≤ n → n < na →
      pgaCross nr na (injectPhase na img φ) n =
        ((∑ r ∈ Finset.range nr, Complex.normSq (img r 0) : ℝ) : ℂ) *
          Complex.exp (((φ n - φ (n - 1) : ℝ) : ℂ) * Complex.I) := by
    intro n h1 hn
    have hn1 : n - 1 < na := by omega
    unfold pgaCross
    calc ∑ r ∈ Finset.range nr,
        pgaSpectrum na (injectPhase na img φ) r n *
          (starRingEnd ℂ) (pgaSpectrum na (injectPhase na img φ) r (n - 1))
        = ∑ r ∈ Finset.range nr,
            ((Complex.normSq (img r 0) : ℝ) : ℂ) *
              Complex.exp (((φ n - φ (n - 1) : ℝ) : ℂ) * Complex.I) := by
          refine Finset.sum_congr rfl fun r hr => ?_
          have hr' := Finset.mem_range.1 hr
          rw [hS r hr' n hn, hS r hr' (n - 1) hn1]
          rw [map_mul, conj_exp_ofReal_mul_I]
          calc img r 0 * Complex.exp (((φ n : ℝ) : ℂ) * Complex.I) *
              ((starRingEnd ℂ) (img r 0) *
                Complex.exp (-((φ (n - 1) : ℝ) : ℂ) * Complex.I))
              = img r 0 * (starRingEnd ℂ) (img r 0) *
                (Complex.exp (((φ n : ℝ) : ℂ) * Complex.I) *
                  Complex.exp (-((φ (n - 1) : ℝ) : ℂ) * Complex.I)) := by
                ring
            _ = ((Complex.normSq (img r 0) : ℝ) : ℂ) *
                Complex.exp (((φ n - φ (n - 1) : ℝ) : ℂ) * Complex.I) := by
                rw [Complex.mul_conj, ← Complex.exp_add]
                congr 2
                push_cast
                ring
      _ = ((∑ r ∈ Finset.range nr, Complex.normSq (img r 0) : ℝ) : ℂ) *
          Complex.exp (((φ n - φ (n - 1) : ℝ) : ℂ) * Complex.I) := by
          rw [← Finset.sum_mul]
          congr 1
          push_cast
          rfl
  have hinc : ∀ n, 1 ≤ n → n < na →
      pgaIncrement nr na PhaseEst.pd (injectPhase na img φ) n =
        φ n - φ (n - 1) := by
    intro n h1 hn
    show Complex.arg (pgaCross nr na (injectPhase na img φ) n) = _
    rw [hcross n h1 hn]
    exact arg_pos_mul_exp _ _ hE (hdphi n h1 hn)
  have hraw : ∀ m, m < na →
      pgaPhiRaw nr na PhaseEst.pd (injectPhase na img φ) m = φ m := by
    intro m hm
    unfold pgaPhiRaw
    calc ∑ k ∈ Finset.range m,
        pgaIncrement nr na PhaseEst.pd (injectPhase na img φ) (k + 1)
        = ∑ k ∈ Finset.range m, (φ (k + 1) - φ k) := by
          refine Finset.sum_congr rfl fun k hk => ?_
          have hk' := Finset.mem_range.1 hk
          rw [hinc (k + 1) (by omega) (by omega), Nat.add_sub_cancel]
      _ = φ m - φ 0 := Finset.sum_range_sub φ m
      _ = φ m := by rw [hphi0, sub_zero]
  have hphase : ∀ n, n < na →
      pgaPhase nr na PhaseEst.pd false (injectPhase na img φ) n = φ n := by
    intro n hn
    show pgaPhiRaw nr na PhaseEst.pd (injectPhase na img φ) n = φ n
    exact hraw n hn
  have hc1 : ∀ n, n < na →
      (pga nr na PhaseEst.pd false 1 (injectPhase na img φ)).2 n = φ n := by
    intro n hn
    have h0 : (pga nr na PhaseEst.pd false 1 (injectPhase na img φ)).2 n =
        pgaPhase nr na PhaseEst.pd false (injectPhase na img φ) n + 0 := rfl
    rw [h0, add_zero]
    exact hphase n hn
  have hc2 : ∀ r m, m < na →
      (pga nr na PhaseEst.pd false 1 (injectPhase na img φ)).1 r m =
        img r m := by
    intro r m hm
    have hL : (pga nr na PhaseEst.pd false 1 (injectPhase na img φ)).1 r m =
        pgaIterImg nr na PhaseEst.pd false (injectPhase na img φ) r m := rfl
    rw [hL]
    have hexpand : pgaIterImg nr na PhaseEst.pd false
        (injectPhase na img φ) r m =
        ((na : ℂ))⁻¹ * ∑ n ∈ Finset.range na,
          fftN na (injectPhase na img φ r) n *
            Complex.exp (-((pgaPhase nr na PhaseEst.pd false
              (injectPhase na img φ) n : ℝ) : ℂ) * Complex.I) *
            eN na ((n : ℤ) * (m : ℤ)) := rfl
    rw [hexpand]
    have hfun : ∑ n ∈ Finset.range na,
        fftN na (injectPhase na img φ r) n *
          Complex.exp (-((pgaPhase nr na PhaseEst.pd false
            (injectPhase na img φ) n : ℝ) : ℂ) * Complex.I) *
          eN na ((n : ℤ) * (m : ℤ)) =
        ∑ n ∈ Finset.range na,
          fftN na (img r) n * eN na ((n : ℤ) * (m : ℤ)) := by
      refine Finset.sum_congr rfl fun n hn => ?_
      have hn' := Finset.mem_range.1 hn
      rw [fftN_injectPhase na hna img φ r n hn', hphase n hn']
      have hone : Complex.exp (((φ n : ℝ) : ℂ) * Complex.I) *
          Complex.exp (-((φ n : ℝ) : ℂ) * Complex.I) = 1 := by
        rw [← Complex.exp_add,
          show ((φ n : ℝ) : ℂ) * Complex.I + -((φ n : ℝ) : ℂ) * Complex.I =
            0 by ring, Complex.exp_zero]
      calc fftN na (img r) n * Complex.exp (((φ n : ℝ) : ℂ) * Complex.I) *
          Complex.exp (-((φ n : ℝ) : ℂ) * Complex.I) *
          eN na ((n : ℤ) * (m : ℤ))
          = fftN na (img r) n *
            (Complex.exp (((φ n : ℝ) : ℂ) * Complex.I) *
              Complex.exp (-((φ n : ℝ) : ℂ) * Complex.I)) *
            eN na ((n : ℤ) * (m : ℤ)) := by ring
        _ = fftN na (img r) n * eN na ((n : ℤ) * (m : ℤ)) := by
            rw [hone, mul_one]
    rw [hfun]
    have hifft : ((na : ℂ))⁻¹ * ∑ n ∈ Finset.range na,
        fftN na (img r) n * eN na ((n : ℤ) * (m : ℤ)) =
        ifftN na (fftN na (img r)) m := rfl
    rw [hifft, ifftN_fftN na hna _ m hm]
  refine ⟨hc1, hc2,
    ⟨linFitA na (pgaPhiRaw nr na PhaseEst.pd (injectPhase na img φ)),
      linFitB na (pgaPhiRaw nr na PhaseEst.pd (injectPhase na img φ)), ?_⟩⟩
  intro n hn
  have h0 : (pga nr na PhaseEst.pd true 1 (injectPhase na img φ)).2 n =
      detrend na (pgaPhiRaw nr na PhaseEst.pd (injectPhase na img φ)) n +
        0 := rfl
  rw [h0, add_zero]
  unfold detrend
  rw [hraw n hn]

/-- C1 witness: a one-row image with its point response at azimuth sample 0
of 2, corrupted by the injected curve `(0, pi/2)`; one pd iteration returns
exactly that curve and restores the image. -/
theorem C1_pga_roundtrip_witness :
    (0 : ℝ) < ∑ r ∈ Finset.range 1,
      Complex.abs ((fun _ m => if m = 0 then (1 : ℂ) else 0) r 0) ^ 2 ∧
    (∀ n, n < 2 →
      (pga 1 2 PhaseEst.pd false 1
        (injectPhase 2 (fun _ m => if m = 0 then 1 else 0)
          (fun n' => if n' = 0 then 0 else Real.pi / 2))).2 n =
        (fun n' => if n' = 0 then (0 : ℝ) else Real.pi / 2) n) ∧
    (∀ r m, m < 2 →
      (pga 1 2 PhaseEst.pd false 1
        (injectPhase 2 (fun _ m => if m = 0 then 1 else 0)
          (fun n' => if n' = 0 then 0 else Real.pi / 2))).1 r m =
        (fun _ m' => if m' = 0 then (1 : ℂ) else 0) r m) := by
  have henergy : (0 : ℝ) < ∑ r ∈ Finset.range 1,
      Complex.abs ((fun _ m => if m = 0 then (1 : ℂ) else 0) r 0) ^ 2 := by
    simp
  have hfft : ∀ k, fftN 2 (fun m => if m = 0 then (1 : ℂ) else 0) k = 1 := by
    intro k
    unfold fftN
    rw [Finset.sum_range_succ, Finset.sum_range_succ, Finset.sum_range_zero]
    simp [eN_zero]
  have heN1 : eN 2 (((1 : ℕ) : ℤ) * ((1 : ℕ) : ℤ)) = -1 := by
    unfold eN
    rw [show 2 * (Real.pi : ℂ) * Complex.I * ((((1 : ℕ) : ℤ) *
        ((1 : ℕ) : ℤ) : ℤ) : ℂ) / ((2 : ℕ) : ℂ) =
        (Real.pi : ℂ) * Complex.I by push_cast; ring]
    exact Complex.exp_pi_mul_I
  have hexp0 : Complex.exp
      ((((fun n' => if n' = 0 then (0 : ℝ) else Real.pi / 2) 0 : ℝ) : ℂ) *
        Complex.I) = 1 := by
    simp
  have hexp1 : Complex.exp
      ((((fun n' => if n' = 0 then (0 : ℝ) else Real.pi / 2) 1 : ℝ) : ℂ) *
        Complex.I) = Complex.I := by
    simp only [one_ne_zero, if_false]
    rw [Complex.exp_mul_I, ← Complex.ofReal_cos, ← Complex.ofReal_sin,
      Real.cos_pi_div_two, Real.sin_pi_div_two]
    simp
  have hcorr : ∀ m, injectPhase 2 (fun _ m' => if m' = 0 then 1 else 0)
      (fun n' => if n' = 0 then 0 else Real.pi / 2) 0 m =
      (2 : ℂ)⁻¹ * (Complex.exp
          ((((fun n' => if n' = 0 then (0 : ℝ) else Real.pi / 2) 0 : ℝ) :
            ℂ) * Complex.I) * eN 2 (((0 : ℕ) : ℤ) * ((m : ℕ) : ℤ)) +
        Complex.exp
          ((((fun n' => if n' = 0 then (0 : ℝ) else Real.pi / 2) 1 : ℝ) :
            ℂ) * Complex.I) * eN 2 (((1 : ℕ) : ℤ) * ((m : ℕ) : ℤ))) := by
    intro m
    have h0 : injectPhase 2 (fun _ m' => if m' = 0 then 1 else 0)
        (fun n' => if n' = 0 then 0 else Real.pi / 2) 0 m =
        (2 : ℂ)⁻¹ * ∑ k ∈ Finset.range 2,
          (fftN 2 (fun m' => if m' = 0 then (1 : ℂ) else 0) k *
            Complex.exp
              ((((fun n' => if n' = 0 then (0 : ℝ) else Real.pi / 2) k :
                ℝ) : ℂ) * Complex.I)) *
            eN 2 ((k : ℤ) * ((m : ℕ) : ℤ)) := rfl
    rw [h0, Finset.sum_range_succ, Finset.sum_range_succ,
      Finset.sum_range_zero, hfft 0, hfft 1, one_mul, one_mul, zero_add]
  have hcorr0 : injectPhase 2 (fun _ m' => if m' = 0 then 1 else 0)
      (fun n' => if n' = 0 then 0 else Real.pi / 2) 0 0 =
      (1 + Complex.I) / 2 := by
    rw [hcorr 0, hexp0, hexp1]
    rw [show (((0 : ℕ) : ℤ) * ((0 : ℕ) : ℤ)) = 0 by norm_num,
      show (((1 : ℕ) : ℤ) * ((0 : ℕ) : ℤ)) = 0 by norm_num, eN_zero]
    ring
  have hcorr1 : injectPhase 2 (fun _ m' => if m' = 0 then 1 else 0)
      (fun n' => if n' = 0 then 0 else Real.pi / 2) 0 1 =
      (1 - Complex.I) / 2 := by
    rw [hcorr 1, hexp0, hexp1]
    rw [show (((0 : ℕ) : ℤ) * ((1 : ℕ) : ℤ)) = 0 by norm_num, eN_zero,
      heN1]
    ring
  have habs : Complex.abs ((1 - Complex.I) / 2) =
      Complex.abs ((1 + Complex.I) / 2) := by
    rw [map_div₀, map_div₀]
    congr 1
    rw [Complex.abs_apply, Complex.abs_apply, Complex.normSq_apply,
      Complex.normSq_apply]
    simp
  have hpeak : ∀ r, r < 1 → ∀ m, m < 2 →
      Complex.abs (injectPhase 2 (fun _ m' => if m' = 0 then 1 else 0)
        (fun n' => if n' = 0 then 0 else Real.pi / 2) r m) ≤
      Complex.abs (injectPhase 2 (fun _ m' => if m' = 0 then 1 else 0)
        (fun n' => if n' = 0 then 0 else Real.pi / 2) r 0) := by
    intro r hr m hm
    have hr0 : r = 0 := by omega
    subst hr0
    rcases (by omega : m = 0 ∨ m = 1) with hm0 | hm1
    · subst hm0
      exact le_rfl
    · subst hm1
      rw [hcorr0, hcorr1]
      exact le_of_eq habs
  have h := C1_pga_roundtrip 1 2 (by norm_num)
    (fun _ m => if m = 0 then 1 else 0)
    (fun n' => if n' = 0 then 0 else Real.pi / 2)
    (fun r hr m h1 h2 => by
      have hm1 : m = 1 := by omega
      subst hm1
      simp)
    henergy
    (by simp)
    (fun n h1 h2 => by
      have hn1 : n = 1 := by omega
      subst hn1
      have hval : (fun n' => if n' = 0 then (0 : ℝ) else Real.pi / 2) 1 -
          (fun n' => if n' = 0 then (0 : ℝ) else Real.pi / 2) (1 - 1) =
          Real.pi / 2 := by
        norm_num
      rw [hval]
      refine Set.mem_Ioc.2 ⟨?_, ?_⟩
      · have := Real.pi_pos
        linarith
      · have := Real.pi_pos
        linarith)
    hpeak
  exact ⟨henergy, h.1, fun r m hm => h.2.1 r m hm⟩

end Torchbp

namespace Torchbp

/-- C4: dealiasing correctness.  For a target cell whose true distances
exceed one ambiguity period of the range profile (`nbins <= m k` range bins,
landing exactly on bin `m k` of fold `foldSelect rnom period`, so the data's
return wraps to bin `w k`), backprojection with `dealias = true` selects the
fold from the cell's nominal range and accumulates the full coherent sum
(magnitude = number of sweeps) at the cell, while `dealias = false` clamps
the raw out-of-window index to the last bin, reads a zero sample there, and
produces `0` at the cell — it does not locate the target. -/
theorem C4_dealias_correctness (data : RangeProfile) (traj : Traj)
    (fc r_res rnom : ℝ) (p : Pos3) (m w : ℕ → ℕ)
    (hn : 0 < data.nbins) (hr : 0 < r_res)
    (hm : ∀ k, k < data.nsweeps →
      dist3 (traj.pos k) p = (m k : ℝ) * r_res)
    (hexceed : ∀ k, k < data.nsweeps → data.nbins ≤ m k)
    (hfold : ∀ k, k < data.nsweeps →
      (m k : ℤ) =
        foldSelect rnom ((data.nbins : ℝ) * r_res) * (data.nbins : ℤ) +
          (w k : ℤ))
    (hwlt : ∀ k, k < data.nsweeps → w k < data.nbins)
    (hwne : ∀ k, k < data.nsweeps → w k ≠ data.nbins - 1)
    (hdata : ∀ k, k < data.nsweeps → ∀ b,
      data.sample k b = if b = w k then
        Complex.exp ((((4 * Real.pi * fc * dist3 (traj.pos k) p) / cLight :
          ℝ) : ℂ) * Complex.I)
      else 0) :
    bpPix data traj fc r_res true p rnom = (data.nsweeps : ℂ) ∧
    bpPix data traj fc r_res false p rnom = 0 ∧
    Complex.abs (bpPix data traj fc r_res true p rnom) =
      (data.nsweeps : ℝ) := by
  have hc_true : ∀ k, k < data.nsweeps →
      sweepContrib data traj fc r_res true p rnom k = 1 := by
    intro k hk
    unfold sweepContrib
    have hidx : rangeIndex true (dist3 (traj.pos k) p) r_res rnom
        data.nbins = (((w k : ℕ) : ℤ) : ℝ) := by
      unfold rangeIndex
      rw [if_pos rfl, hm k hk, mul_div_cancel_right₀ _ hr.ne']
      have hcast : ((m k : ℕ) : ℝ) =
          ((foldSelect rnom ((data.nbins : ℝ) * r_res) : ℤ) : ℝ) *
            (data.nbins : ℝ) + ((w k : ℕ) : ℝ) := by
        exact_mod_cast congrArg (fun z : ℤ => (z : ℝ)) (hfold k hk)
      push_cast at hcast ⊢
      linarith
    rw [hidx, interpLin_intCast]
    have hclamp : clampIdx data.nbins ((w k : ℕ) : ℤ) = w k := by
      unfold clampIdx
      rw [Int.toNat_natCast]
      exact Nat.min_eq_left (by
        have := hwlt k hk
        omega)
    rw [hclamp, hdata k hk (w k), if_pos rfl]
    unfold carrier
    rw [← Complex.exp_add,
      show (((4 * Real.pi * fc * dist3 (traj.pos k) p) / cLight : ℝ) : ℂ) *
          Complex.I +
          -(((4 * Real.pi * fc * dist3 (traj.pos k) p) / cLight : ℝ) : ℂ) *
          Complex.I = 0 by ring,
      Complex.exp_zero]
  have hc_false : ∀ k, k < data.nsweeps →
      sweepContrib data traj fc r_res false p rnom k = 0 := by
    intro k hk
    unfold sweepContrib
    have hidx : rangeIndex false (dist3 (traj.pos k) p) r_res rnom
        data.nbins = (((m k : ℕ) : ℤ) : ℝ) := by
      unfold rangeIndex
      rw [if_neg (by simp), hm k hk, mul_div_cancel_right₀ _ hr.ne']
      push_cast
      rfl
    rw [hidx, interpLin_intCast]
    have hclamp : clampIdx data.nbins ((m k : ℕ) : ℤ) = data.nbins - 1 := by
      unfold clampIdx
      rw [Int.toNat_natCast]
      exact Nat.min_eq_right (by
        have := hexceed k hk
        omega)
    rw [hclamp, hdata k hk (data.nbins - 1),
      if_neg (fun h => hwne k hk h.symm), zero_mul]
  have htrue : bpPix data traj fc r_res true p rnom = (data.nsweeps : ℂ) := by
    unfold bpPix
    rw [accumLoop_eq_sum]
    rw [Finset.sum_congr rfl fun k hk => hc_true k (Finset.mem_range.1 hk)]
    simp
  have hfalse : bpPix data traj fc r_res false p rnom = 0 := by
    unfold bpPix
    rw [accumLoop_eq_sum]
    rw [Finset.sum_congr rfl fun k hk => hc_false k (Finset.mem_range.1 hk)]
    simp
  refine ⟨htrue, hfalse, ?_⟩
  rw [htrue]
  simp

/-- C4 witness: one sweep, a 4-bin profile with ambiguity period 4 range
bins, and a target cell at 5 range bins (beyond one period) whose return
wraps to bin 1. -/
theorem C4_dealias_correctness_witness :
    (4 : ℕ) ≤ 5 ∧
    bpPix ⟨1, 4, fun _ b => if b = 1 then 1 else 0⟩ ⟨1, fun _ => ⟨0, 0, 0⟩⟩
      0 1 true ⟨5, 0, 0⟩ 5 = ((1 : ℕ) : ℂ) ∧
    bpPix ⟨1, 4, fun _ b => if b = 1 then 1 else 0⟩ ⟨1, fun _ => ⟨0, 0, 0⟩⟩
      0 1 false ⟨5, 0, 0⟩ 5 = 0 := by
  have hd5 : dist3 (Traj.pos ⟨1, fun _ => ⟨0, 0, 0⟩⟩ 0) ⟨5, 0, 0⟩ = 5 := by
    unfold dist3
    simp only [Traj.pos]
    rw [show ((0 : ℝ) - 5) ^ 2 + (0 - 0) ^ 2 + (0 - 0) ^ 2 = 5 ^ 2 by ring]
    exact Real.sqrt_sq (by norm_num)
  have hfold5 : foldSelect 5 (((4 : ℕ) : ℝ) * 1) = 1 := by
    unfold foldSelect
    rw [show ((5 : ℝ) / (((4 : ℕ) : ℝ) * 1)) = 5 / 4 by norm_num]
    rw [Int.floor_eq_iff]
    constructor <;> norm_num
  have h := C4_dealias_correctness ⟨1, 4, fun _ b => if b = 1 then 1 else 0⟩
    ⟨1, fun _ => ⟨0, 0, 0⟩⟩ 0 1 5 ⟨5, 0, 0⟩ (fun _ => 5) (fun _ => 1)
    (by norm_num) (by norm_num)
    (fun k hk => by
      rw [hd5]
      norm_num)
    (fun k hk => by norm_num)
    (fun k hk => by
      rw [hfold5]
      norm_num)
    (fun k hk => by norm_num)
    (fun k hk => by norm_num)
    (fun k hk b => by
      rw [hd5]
      rw [show ((4 * Real.pi * 0 * 5) / cLight : ℝ) = 0 by
        rw [show (4 * Real.pi * 0 * 5 : ℝ) = 0 by ring, zero_div]]
      simp)
  exact ⟨by norm_num, h.1, h.2.1⟩

end Torchbp

namespace Torchbp

/-- Running maximum of the first `n` values of `g` (0 for an empty scan;
magnitudes are nonnegative, so 0 is neutral). -/
def maxOver (g : ℕ → ℝ) : ℕ → ℝ
  | 0 => 0
  | k + 1 => max (maxOver g k) (g k)

/-- Peak magnitude of an image. -/
def peakMag (im : Image2) : ℝ :=
  maxOver (fun u => maxOver (fun v => Complex.abs (im.pix u v)) im.nc) im.nr

/-- Mean absolute difference between two images over the first image's index
grid (the notebooks' `torch.mean(torch.abs(img_cart - img_cart2))`). -/
def meanAbsDiff (a b : Image2) : ℝ :=
  accumLoop (fun u =>
      accumLoop (fun v => Complex.abs (a.pix u v - b.pix u v)) a.nc) a.nr /
    ((a.nr : ℝ) * (a.nc : ℝ))

/-- Without dealiasing the fractional range index is the raw ratio. -/
theorem rangeIndex_false (d rr rnom : ℝ) (n : ℕ) :
    rangeIndex false d rr rnom n = d / rr := rfl

/-- Without dealiasing the nominal-range argument is irrelevant. -/
theorem bpPix_false_rnom (data : RangeProfile) (traj : Traj) (fc rr : ℝ)
    (p : Pos3) (rnom rnom' : ℝ) :
    bpPix data traj fc rr false p rnom = bpPix data traj fc rr false p rnom' := by
  unfold bpPix
  have hco : sweepContrib data traj fc rr false p rnom =
      sweepContrib data traj fc rr false p rnom' := by
    funext k
    unfold sweepContrib
    rw [rangeIndex_false, rangeIndex_false]
  rw [hco]

/-- Bilinear interpolation at an exactly integral in-range lattice point
reads off the image sample. -/
theorem interp2_natCast (f : ℕ → ℕ → ℂ) (nr nc i j : ℕ) (hi : i < nr)
    (hj : j < nc) :
    interp2 f nr nc ((i : ℕ) : ℝ) ((j : ℕ) : ℝ) = f i j := by
  unfold interp2
  rw [interpLin_natCast]
  rw [Nat.min_eq_left (by omega), interpLin_natCast,
    Nat.min_eq_left (by omega)]

end Torchbp

namespace Torchbp

/-- C2: backprojection equivalence.  For the same range-compressed data,
trajectory and target scene, backprojecting directly onto a Cartesian grid
and backprojecting onto an equivalent polar grid followed by
polar-to-Cartesian resampling agree: at every Cartesian cell that maps onto
an in-bounds polar lattice node the two pipelines give exactly equal complex
values (hence zero magnitude and phase difference), and the mean absolute
difference is `0`, below 1% of the peak magnitude whenever the image is
nonzero. -/
theorem C2_backprojection_equivalence (data : RangeProfile) (traj : Traj)
    (fc r_res : ℝ) (gp : PolarGrid) (gc : CartGrid)
    (hrs : 0 < rStep gp) (hts : 0 < tStep gp)
    (halign : ∀ u v, u < gc.nx → v < gc.ny →
      ∃ i j, i < gp.nr ∧ j < gp.nt ∧
        0 ≤ xAt gc u - (trajMean traj).x ∧
        0 < Real.sqrt ((xAt gc u - (trajMean traj).x) ^ 2 +
          (yAt gc v - (trajMean traj).y) ^ 2) ∧
        rAt gp i = Real.sqrt ((xAt gc u - (trajMean traj).x) ^ 2 +
          (yAt gc v - (trajMean traj).y) ^ 2) ∧
        tAt gp j = (yAt gc v - (trajMean traj).y) /
          Real.sqrt ((xAt gc u - (trajMean traj).x) ^ 2 +
            (yAt gc v - (trajMean traj).y) ^ 2))
    (hpk : 0 < peakMag
      (squeeze0 (backprojection_cart_2d data gc fc r_res traj false))) :
    (∀ u v, u < gc.nx → v < gc.ny →
      (polar_to_cart_linear
          (squeeze0 (backprojection_polar_2d data gp fc r_res traj false))
          (trajMean traj) gp gc fc 0).pix u v =
        (squeeze0 (backprojection_cart_2d data gc fc r_res traj false)).pix
          u v) ∧
    meanAbsDiff
        (polar_to_cart_linear
          (squeeze0 (backprojection_polar_2d data gp fc r_res traj false))
          (trajMean traj) gp gc fc 0)
        (squeeze0 (backprojection_cart_2d data gc fc r_res traj false)) <
      0.01 * peakMag
        (squeeze0 (backprojection_cart_2d data gc fc r_res traj false)) := by
  have hcell : ∀ u v, u < gc.nx → v < gc.ny →
      (polar_to_cart_linear
          (squeeze0 (backprojection_polar_2d data gp fc r_res traj false))
          (trajMean traj) gp gc fc 0).pix u v =
        (squeeze0 (backprojection_cart_2d data gc fc r_res traj false)).pix
          u v := by
    intro u v hu hv
    obtain ⟨i, j, hi, hj, hdx, hrpos, hri, htj⟩ := halign u v hu hv
    have hRne : Real.sqrt ((xAt gc u - (trajMean traj).x) ^ 2 +
        (yAt gc v - (trajMean traj).y) ^ 2) ≠ 0 := ne_of_gt hrpos
    have hR : p2cR (trajMean traj) 0 (xAt gc u) (yAt gc v) =
        Real.sqrt ((xAt gc u - (trajMean traj).x) ^ 2 +
          (yAt gc v - (trajMean traj).y) ^ 2) := by
      unfold p2cR
      rw [Real.cos_zero, Real.sin_zero]
      congr 1
      ring
    have hS2 : p2cS (trajMean traj) 0 (xAt gc u) (yAt gc v) =
        (yAt gc v - (trajMean traj).y) /
          Real.sqrt ((xAt gc u - (trajMean traj).x) ^ 2 +
            (yAt gc v - (trajMean traj).y) ^ 2) := by
      unfold p2cS
      rw [hR, if_neg hRne, Real.cos_zero, Real.sin_zero]
      congr 1
      ring
    have hbounds : inPolarBounds gp
        (Real.sqrt ((xAt gc u - (trajMean traj).x) ^ 2 +
          (yAt gc v - (trajMean traj).y) ^ 2))
        ((yAt gc v - (trajMean traj).y) /
          Real.sqrt ((xAt gc u - (trajMean traj).x) ^ 2 +
            (yAt gc v - (trajMean traj).y) ^ 2)) := by
      refine ⟨?_, ?_, ?_, ?_⟩
      · rw [← hri]
        unfold rAt
        have h0 : 0 ≤ (i : ℝ) * rStep gp :=
          mul_nonneg (Nat.cast_nonneg i) hrs.le
        linarith
      · rw [← hri]
        unfold rAt
        have hle : (i : ℝ) ≤ ((gp.nr - 1 : ℕ) : ℝ) := Nat.cast_le.2 (by omega)
        have := mul_le_mul_of_nonneg_right hle hrs.le
        linarith
      · rw [← htj]
        unfold tAt
        have h0 : 0 ≤ (j : ℝ) * tStep gp :=
          mul_nonneg (Nat.cast_nonneg j) hts.le
        linarith
      · rw [← htj]
        unfold tAt
        have hle : (j : ℝ) ≤ ((gp.nt - 1 : ℕ) : ℝ) := Nat.cast_le.2 (by omega)
        have := mul_le_mul_of_nonneg_right hle hts.le
        linarith
    have hfrac_r : (Real.sqrt ((xAt gc u - (trajMean traj).x) ^ 2 +
        (yAt gc v - (trajMean traj).y) ^ 2) - gp.r0) / rStep gp =
        ((i : ℕ) : ℝ) := by
      rw [← hri]
      unfold rAt
      field_simp
    have hfrac_t : ((yAt gc v - (trajMean traj).y) /
        Real.sqrt ((xAt gc u - (trajMean traj).x) ^ 2 +
          (yAt gc v - (trajMean traj).y) ^ 2) - gp.t0) / tStep gp =
        ((j : ℕ) : ℝ) := by
      rw [← htj]
      unfold tAt
      field_simp
    have hL : (polar_to_cart_linear
        (squeeze0 (backprojection_polar_2d data gp fc r_res traj false))
        (trajMean traj) gp gc fc 0).pix u v =
        (if inPolarBounds gp
            (p2cR (trajMean traj) 0 (xAt gc u) (yAt gc v))
            (p2cS (trajMean traj) 0 (xAt gc u) (yAt gc v)) then
          interp2
              (fun i' j' =>
                (squeeze0 (backprojection_polar_2d data gp fc r_res traj
                  false)).pix i' j' *
                  Complex.exp ((((4 * Real.pi * fc * rAt gp i') / cLight :
                    ℝ) : ℂ) * Complex.I))
              gp.nr gp.nt
              ((p2cR (trajMean traj) 0 (xAt gc u) (yAt gc v) - gp.r0) /
                rStep gp)
              ((p2cS (trajMean traj) 0 (xAt gc u) (yAt gc v) - gp.t0) /
                tStep gp) *
            carrier fc (p2cR (trajMean traj) 0 (xAt gc u) (yAt gc v))
        else 0) := rfl
    rw [hL, hR, hS2, if_pos hbounds, hfrac_r, hfrac_t,
      interp2_natCast _ _ _ _ _ hi hj]
    have hone : Complex.exp ((((4 * Real.pi * fc * rAt gp i) / cLight : ℝ) :
        ℂ) * Complex.I) * carrier fc (rAt gp i) = 1 := by
      unfold carrier
      rw [← Complex.exp_add,
        show (((4 * Real.pi * fc * rAt gp i) / cLight : ℝ) : ℂ) *
            Complex.I +
            -(((4 * Real.pi * fc * rAt gp i) / cLight : ℝ) : ℂ) *
            Complex.I = 0 by ring,
        Complex.exp_zero]
    rw [← hri, mul_assoc, hone, mul_one]
    have hpolarpix : (squeeze0 (backprojection_polar_2d data gp fc r_res
        traj false)).pix i j =
        bpPix data traj fc r_res false
          (polarCellPos (trajMean traj) (rAt gp i) (tAt gp j))
          (rAt gp i) := rfl
    have hcartpix : (squeeze0 (backprojection_cart_2d data gc fc r_res traj
        false)).pix u v =
        bpPix data traj fc r_res false
          (cartCellPos (xAt gc u) (yAt gc v))
          (dist3 (cartCellPos (xAt gc u) (yAt gc v)) (trajMean traj)) := rfl
    rw [hpolarpix, hcartpix]
    have hpos : polarCellPos (trajMean traj) (rAt gp i) (tAt gp j) =
        cartCellPos (xAt gc u) (yAt gc v) := by
      have hD : 0 ≤ (xAt gc u - (trajMean traj).x) ^ 2 +
          (yAt gc v - (trajMean traj).y) ^ 2 := by positivity
      have hr2 : Real.sqrt ((xAt gc u - (trajMean traj).x) ^ 2 +
          (yAt gc v - (trajMean traj).y) ^ 2) ^ 2 =
          (xAt gc u - (trajMean traj).x) ^ 2 +
            (yAt gc v - (trajMean traj).y) ^ 2 := Real.sq_sqrt hD
      have hsq : Real.sqrt (1 - ((yAt gc v - (trajMean traj).y) /
          Real.sqrt ((xAt gc u - (trajMean traj).x) ^ 2 +
            (yAt gc v - (trajMean traj).y) ^ 2)) ^ 2) =
          (xAt gc u - (trajMean traj).x) /
            Real.sqrt ((xAt gc u - (trajMean traj).x) ^ 2 +
              (yAt gc v - (trajMean traj).y) ^ 2) := by
        have hD0 : (xAt gc u - (trajMean traj).x) ^ 2 +
            (yAt gc v - (trajMean traj).y) ^ 2 ≠ 0 :=
          ne_of_gt (Real.sqrt_pos.1 hrpos)
        rw [show 1 - ((yAt gc v - (trajMean traj).y) /
            Real.sqrt ((xAt gc u - (trajMean traj).x) ^ 2 +
              (yAt gc v - (trajMean traj).y) ^ 2)) ^ 2 =
            ((xAt gc u - (trajMean traj).x) /
              Real.sqrt ((xAt gc u - (trajMean traj).x) ^ 2 +
                (yAt gc v - (trajMean traj).y) ^ 2)) ^ 2 by
          rw [div_pow, div_pow, hr2]
          field_simp]
        exact Real.sqrt_sq (div_nonneg hdx hrpos.le)
      unfold polarCellPos cartCellPos
      simp only [Pos3.mk.injEq]
      refine ⟨?_, ?_, trivial⟩
      · rw [hri, htj, hsq, mul_comm, div_mul_cancel₀ _ hRne]
        ring
      · rw [hri, htj, mul_comm, div_mul_cancel₀ _ hRne]
        ring
    rw [hpos]
    exact bpPix_false_rnom data traj fc r_res _ _ _
  refine ⟨hcell, ?_⟩
  have hmad : meanAbsDiff
      (polar_to_cart_linear
        (squeeze0 (backprojection_polar_2d data gp fc r_res traj false))
        (trajMean traj) gp gc fc 0)
      (squeeze0 (backprojection_cart_2d data gc fc r_res traj false)) =
      0 := by
    unfold meanAbsDiff
    rw [accumLoop_eq_sum]
    rw [Finset.sum_eq_zero, zero_div]
    intro u hu
    rw [accumLoop_eq_sum]
    refine Finset.sum_eq_zero fun v hv => ?_
    rw [hcell u v (Finset.mem_range.1 hu) (Finset.mem_range.1 hv), sub_self]
    exact map_zero Complex.abs
  rw [hmad]
  exact mul_pos (by norm_num) hpk

end Torchbp

namespace Torchbp

/-- C2 witness: a one-cell Cartesian grid at (3, 4) against a polar grid
whose single node sits exactly at range 5, sine-of-angle 4/5, with a
constant-one profile and the platform at the origin. -/
theorem C2_backprojection_equivalence_witness :
    0 < peakMag (squeeze0 (backprojection_cart_2d ⟨1, 8, fun _ _ => 1⟩
      ⟨3, 4, 1, 4, 5, 1⟩ 0 1 ⟨1, fun _ => ⟨0, 0, 0⟩⟩ false)) ∧
    meanAbsDiff
        (polar_to_cart_linear
          (squeeze0 (backprojection_polar_2d ⟨1, 8, fun _ _ => 1⟩
            ⟨5, 6, 1, 4 / 5, 9 / 5, 1⟩ 0 1 ⟨1, fun _ => ⟨0, 0, 0⟩⟩ false))
          (trajMean ⟨1, fun _ => ⟨0, 0, 0⟩⟩) ⟨5, 6, 1, 4 / 5, 9 / 5, 1⟩
          ⟨3, 4, 1, 4, 5, 1⟩ 0 0)
        (squeeze0 (backprojection_cart_2d ⟨1, 8, fun _ _ => 1⟩
          ⟨3, 4, 1, 4, 5, 1⟩ 0 1 ⟨1, fun _ => ⟨0, 0, 0⟩⟩ false)) <
      0.01 * peakMag (squeeze0 (backprojection_cart_2d ⟨1, 8, fun _ _ => 1⟩
        ⟨3, 4, 1, 4, 5, 1⟩ 0 1 ⟨1, fun _ => ⟨0, 0, 0⟩⟩ false)) := by
  have hxat : xAt ⟨3, 4, 1, 4, 5, 1⟩ 0 = 3 := by
    unfold xAt xStep
    norm_num
  have hyat : yAt ⟨3, 4, 1, 4, 5, 1⟩ 0 = 4 := by
    unfold yAt yStep
    norm_num
  have htmx : (trajMean ⟨1, fun _ => ⟨0, 0, 0⟩⟩).x = 0 := by
    unfold trajMean
    simp [accumLoop]
  have htmy : (trajMean ⟨1, fun _ => ⟨0, 0, 0⟩⟩).y = 0 := by
    unfold trajMean
    simp [accumLoop]
  have hkx : xAt ⟨3, 4, 1, 4, 5, 1⟩ 0 - (trajMean ⟨1, fun _ => ⟨0, 0, 0⟩⟩).x
      = 3 := by
    rw [hxat, htmx]
    norm_num
  have hky : yAt ⟨3, 4, 1, 4, 5, 1⟩ 0 - (trajMean ⟨1, fun _ => ⟨0, 0, 0⟩⟩).y
      = 4 := by
    rw [hyat, htmy]
    norm_num
  have hs5 : Real.sqrt ((3 : ℝ) ^ 2 + (4 : ℝ) ^ 2) = 5 := by
    rw [show ((3 : ℝ) ^ 2 + (4 : ℝ) ^ 2) = 5 ^ 2 by norm_num]
    exact Real.sqrt_sq (by norm_num)
  have hrAt0 : rAt ⟨5, 6, 1, 4 / 5, 9 / 5, 1⟩ 0 = 5 := by
    unfold rAt rStep
    norm_num
  have htAt0 : tAt ⟨5, 6, 1, 4 / 5, 9 / 5, 1⟩ 0 = 4 / 5 := by
    unfold tAt tStep
    norm_num
  have hrs : 0 < rStep ⟨5, 6, 1, 4 / 5, 9 / 5, 1⟩ := by
    unfold rStep
    norm_num
  have hts : 0 < tStep ⟨5, 6, 1, 4 / 5, 9 / 5, 1⟩ := by
    unfold tStep
    norm_num
  have hconst : ∀ x : ℝ, interpLin (fun _ => (1 : ℂ)) 8 x = 1 := by
    intro x
    unfold interpLin
    push_cast
    ring
  have hcarrier0 : ∀ d : ℝ, carrier 0 d = 1 := by
    intro d
    unfold carrier
    rw [show ((4 * Real.pi * 0 * d) / cLight : ℝ) = 0 by
      rw [mul_zero, zero_mul, zero_div]]
    simp
  have hpix : (squeeze0 (backprojection_cart_2d ⟨1, 8, fun _ _ => 1⟩
      ⟨3, 4, 1, 4, 5, 1⟩ 0 1 ⟨1, fun _ => ⟨0, 0, 0⟩⟩ false)).pix 0 0 = 1 := by
    have h2 : (squeeze0 (backprojection_cart_2d ⟨1, 8, fun _ _ => 1⟩
        ⟨3, 4, 1, 4, 5, 1⟩ 0 1 ⟨1, fun _ => ⟨0, 0, 0⟩⟩ false)).pix 0 0 =
        0 + interpLin (fun _ => (1 : ℂ)) 8
          (rangeIndex false
            (dist3 ((⟨0, 0, 0⟩ : Pos3))
              (cartCellPos (xAt ⟨3, 4, 1, 4, 5, 1⟩ 0)
                (yAt ⟨3, 4, 1, 4, 5, 1⟩ 0))) 1
            (dist3 (cartCellPos (xAt ⟨3, 4, 1, 4, 5, 1⟩ 0)
                (yAt ⟨3, 4, 1, 4, 5, 1⟩ 0))
              (trajMean ⟨1, fun _ => ⟨0, 0, 0⟩⟩)) 8) *
          carrier 0
            (dist3 ((⟨0, 0, 0⟩ : Pos3))
              (cartCellPos (xAt ⟨3, 4, 1, 4, 5, 1⟩ 0)
                (yAt ⟨3, 4, 1, 4, 5, 1⟩ 0))) := rfl
    rw [h2, zero_add, hconst, hcarrier0, mul_one]
  have hpeak : peakMag (squeeze0 (backprojection_cart_2d ⟨1, 8, fun _ _ => 1⟩
      ⟨3, 4, 1, 4, 5, 1⟩ 0 1 ⟨1, fun _ => ⟨0, 0, 0⟩⟩ false)) =
      max 0 (max 0 (Complex.abs
        ((squeeze0 (backprojection_cart_2d ⟨1, 8, fun _ _ => 1⟩
          ⟨3, 4, 1, 4, 5, 1⟩ 0 1 ⟨1, fun _ => ⟨0, 0, 0⟩⟩ false)).pix 0 0)))
      := rfl
  have hpk : 0 < peakMag (squeeze0 (backprojection_cart_2d
      ⟨1, 8, fun _ _ => 1⟩ ⟨3, 4, 1, 4, 5, 1⟩ 0 1
      ⟨1, fun _ => ⟨0, 0, 0⟩⟩ false)) := by
    rw [hpeak, hpix, map_one Complex.abs]
    exact lt_max_of_lt_right (lt_max_of_lt_right one_pos)
  have halign : ∀ u v, u < (⟨3, 4, 1, 4, 5, 1⟩ : CartGrid).nx →
      v < (⟨3, 4, 1, 4, 5, 1⟩ : CartGrid).ny →
      ∃ i j, i < (⟨5, 6, 1, 4 / 5, 9 / 5, 1⟩ : PolarGrid).nr ∧
        j < (⟨5, 6, 1, 4 / 5, 9 / 5, 1⟩ : PolarGrid).nt ∧
        0 ≤ xAt ⟨3, 4, 1, 4, 5, 1⟩ u -
          (trajMean ⟨1, fun _ => ⟨0, 0, 0⟩⟩).x ∧
        0 < Real.sqrt ((xAt ⟨3, 4, 1, 4, 5, 1⟩ u -
            (trajMean ⟨1, fun _ => ⟨0, 0, 0⟩⟩).x) ^ 2 +
          (yAt ⟨3, 4, 1, 4, 5, 1⟩ v -
            (trajMean ⟨1, fun _ => ⟨0, 0, 0⟩⟩).y) ^ 2) ∧
        rAt ⟨5, 6, 1, 4 / 5, 9 / 5, 1⟩ i =
          Real.sqrt ((xAt ⟨3, 4, 1, 4, 5, 1⟩ u -
            (trajMean ⟨1, fun _ => ⟨0, 0, 0⟩⟩).x) ^ 2 +
          (yAt ⟨3, 4, 1, 4, 5, 1⟩ v -
            (trajMean ⟨1, fun _ => ⟨0, 0, 0⟩⟩).y) ^ 2) ∧
        tAt ⟨5, 6, 1, 4 / 5, 9 / 5, 1⟩ j =
          (yAt ⟨3, 4, 1, 4, 5, 1⟩ v -
            (trajMean ⟨1, fun _ => ⟨0, 0, 0⟩⟩).y) /
          Real.sqrt ((xAt ⟨3, 4, 1, 4, 5, 1⟩ u -
            (trajMean ⟨1, fun _ => ⟨0, 0, 0⟩⟩).x) ^ 2 +
          (yAt ⟨3, 4, 1, 4, 5, 1⟩ v -
            (trajMean ⟨1, fun _ => ⟨0, 0, 0⟩⟩).y) ^ 2) := by
    intro u v hu hv
    have hu0 : u = 0 := Nat.lt_one_iff.1 hu
    have hv0 : v = 0 := Nat.lt_one_iff.1 hv
    subst hu0
    subst hv0
    refine ⟨0, 0, Nat.one_pos, Nat.one_pos, ?_, ?_, ?_, ?_⟩
    · rw [hkx]
      norm_num
    · rw [hkx, hky, hs5]
      norm_num
    · rw [hkx, hky, hs5, hrAt0]
    · rw [hkx, hky, hs5, htAt0]
  exact ⟨hpk, (C2_backprojection_equivalence ⟨1, 8, fun _ _ => 1⟩
    ⟨1, fun _ => ⟨0, 0, 0⟩⟩ 0 1 ⟨5, 6, 1, 4 / 5, 9 / 5, 1⟩
    ⟨3, 4, 1, 4, 5, 1⟩ hrs hts halign hpk).2⟩

end Torchbp
